import Mathlib

/-
  Verification of the test-discovery and run-output-correlation core of the
  vscode-selfhost-test-provider extension.

  The development shallowly embeds:
  * the test tree (`TestItemWithChildren.addChild` / `.prune` from testTree.ts),
  * the TypeScript declaration extractor and the discovery traversal
    (`extractTestFromNode` / `extractTestsTs`),
  * the streaming run-output correlator (`scanTestOutput` from
    testOutputScanner.ts).

  JavaScript `Map<string, _>` objects are embedded as association lists with
  `Map.get` / `Map.set` insertion-order semantics; `Set` objects as duplicate
  free lists.  Object reference identity (`===`), which the source uses to
  detect whether `addChild` inserted the fresh candidate, is embedded as an
  explicit `isNew` flag returned alongside the `[node, changed]` pair.
-/

namespace SelfhostTest

/-- A line/character position, mirroring `vscode.Position`. -/
structure Pos where
  line : Nat
  character : Nat
deriving DecidableEq, Repr

/-- A source range, mirroring `vscode.Range` (start and end positions). -/
structure VRange where
  start : Pos
  stop : Pos
deriving DecidableEq, Repr

/-- A location, mirroring `vscode.Location`: a file URI (compared by its
string rendering) plus a range. -/
structure Loc where
  uri : String
  range : VRange
deriving DecidableEq, Repr

/-- Embeds `locationEquals` from testTree.ts:
`a.uri.toString() === b.uri.toString() && a.range.isEqual(b.range)`. -/
def locationEquals (a b : Loc) : Bool :=
  decide (a.uri = b.uri) && decide (a.range = b.range)

theorem locationEquals_iff (a b : Loc) : locationEquals a b = true ↔ a = b := by
  cases a
  cases b
  simp [locationEquals, Loc.mk.injEq]

theorem locationEquals_false_iff (a b : Loc) : locationEquals a b = false ↔ a ≠ b := by
  constructor
  · intro h hab
    have h2 := (locationEquals_iff a b).mpr hab
    rw [h2] at h
    cases h
  · intro h
    cases hb : locationEquals a b
    · rfl
    · exact absurd ((locationEquals_iff a b).mp hb) h

/-- A node of the test tree: `TestCase` (label, location, generation) or
`TestSuite` (label, location, children).  The children list embeds the
`childrenByName : Map<string, TestSuite | TestCase>` of
`TestItemWithChildren`; sibling labels are unique because the source keys the
map by label.  The `suite` back-pointer (pure navigation) is not embedded. -/
inductive TTree where
  | tcase (label : String) (location : Loc) (generation : Nat)
  | tsuite (label : String) (location : Loc) (children : List TTree)

namespace TTree

def label : TTree → String
  | tcase l _ _ => l
  | tsuite l _ _ => l

def location : TTree → Loc
  | tcase _ loc _ => loc
  | tsuite _ loc _ => loc

def isCase : TTree → Bool
  | tcase _ _ _ => true
  | tsuite _ _ _ => false

end TTree

/-- `Map.get`: first (unique) entry with the given label. -/
def lookupChild (l : String) : List TTree → Option TTree
  | [] => none
  | c :: cs => if c.label = l then some c else lookupChild l cs

/-- `Map.set`: replace the entry with the given label in place (keeping map
order), or append a fresh entry when the key is absent. -/
def setChild (l : String) (v : TTree) : List TTree → List TTree
  | [] => [v]
  | c :: cs => if c.label = l then v :: cs else c :: setChild l v cs

/-- The result of `addChild`.  The source returns the pair
`[TestSuite | TestCase, boolean]`; `isNew` additionally records whether the
returned node is the freshly inserted candidate (observable in the source as
`deduped === testItem` reference equality). -/
structure AddChildResult where
  children : List TTree
  node : TTree
  changed : Bool
  isNew : Bool

/-- Embeds `TestItemWithChildren.addChild` (testTree.ts).  Looks up the
candidate's label; merges into an existing same-kind node (copying location,
and generation for a case, into it), otherwise `set`s the candidate. -/
def addChild (cs : List TTree) (cand : TTree) : AddChildResult :=
  match lookupChild cand.label cs with
  | some (TTree.tcase l loc _) =>
    match cand with
    | TTree.tcase _ locC gC =>
      let merged := TTree.tcase l locC gC
      ⟨setChild l merged cs, merged, !locationEquals locC loc, false⟩
    | TTree.tsuite _ _ _ =>
      ⟨setChild cand.label cand cs, cand, false, true⟩
  | some (TTree.tsuite l loc cc) =>
    match cand with
    | TTree.tsuite _ locC _ =>
      let merged := TTree.tsuite l locC cc
      ⟨setChild l merged cs, merged, !locationEquals locC loc, false⟩
    | TTree.tcase _ _ _ =>
      ⟨setChild cand.label cand cs, cand, false, true⟩
  | none => ⟨cs ++ [cand], cand, false, true⟩

/-- Sample locations used by concrete witnesses. -/
def locEx1 : Loc := ⟨"file:///a.test.ts", ⟨⟨1, 0⟩, ⟨3, 2⟩⟩⟩

def locEx2 : Loc := ⟨"file:///a.test.ts", ⟨⟨5, 0⟩, ⟨7, 2⟩⟩⟩

def locEx3 : Loc := ⟨"file:///b.test.ts", ⟨⟨1, 0⟩, ⟨3, 2⟩⟩⟩

/-- Claim C1: merging a candidate whose label matches an existing same-kind
sibling returns the existing node with its location (and, for a case, its
generation) overwritten by the candidate's, reports `changed` exactly when the
candidate's location differs from the previous one, and never duplicates the
entry; a candidate with no existing sibling is inserted fresh and returned
with `changed = false`. -/
theorem addChild_merge_and_insert (cs : List TTree) (cand : TTree) :
    (∀ l loc g locC gC, cand = TTree.tcase l locC gC →
      lookupChild l cs = some (TTree.tcase l loc g) →
      addChild cs cand =
        ⟨setChild l (TTree.tcase l locC gC) cs, TTree.tcase l locC gC,
          !locationEquals locC loc, false⟩ ∧
      ((!locationEquals locC loc) = true ↔ locC ≠ loc)) ∧
    (∀ l loc cc locC ccC, cand = TTree.tsuite l locC ccC →
      lookupChild l cs = some (TTree.tsuite l loc cc) →
      addChild cs cand =
        ⟨setChild l (TTree.tsuite l locC cc) cs, TTree.tsuite l locC cc,
          !locationEquals locC loc, false⟩ ∧
      ((!locationEquals locC loc) = true ↔ locC ≠ loc)) ∧
    (lookupChild cand.label cs = none →
      addChild cs cand = ⟨cs ++ [cand], cand, false, true⟩) := by
  refine ⟨?_, ?_, ?_⟩
  · rintro l loc g locC gC rfl hlk
    constructor
    · simp only [addChild, TTree.label] at hlk ⊢
      rw [hlk]
    · simp [locationEquals_false_iff]
  · rintro l loc cc locC ccC rfl hlk
    constructor
    · simp only [addChild, TTree.label] at hlk ⊢
      rw [hlk]
    · simp [locationEquals_false_iff]
  · intro hlk
    unfold addChild
    rw [hlk]

/-- Concrete instantiation of `addChild_merge_and_insert`: merging a same-label
case whose body moved updates the location in place and reports a change;
inserting into an empty map returns the candidate unchanged. -/
theorem addChild_merge_and_insert_witness :
    (addChild [TTree.tcase "a" locEx1 0] (TTree.tcase "a" locEx2 5) =
      ⟨[TTree.tcase "a" locEx2 5], TTree.tcase "a" locEx2 5, true, false⟩) ∧
    (addChild [] (TTree.tcase "a" locEx1 0) =
      ⟨[TTree.tcase "a" locEx1 0], TTree.tcase "a" locEx1 0, false, true⟩) := by
  constructor
  · have h := (addChild_merge_and_insert [TTree.tcase "a" locEx1 0]
      (TTree.tcase "a" locEx2 5)).1 "a" locEx1 0 locEx2 5 rfl (by rfl)
    rw [h.1]
    rfl
  · exact (addChild_merge_and_insert [] (TTree.tcase "a" locEx1 0)).2.2 (by rfl)

/-- Claim C7 counterexample: adding a suite whose label matches an existing
case silently replaces the case — the pre-existing node is no longer
reachable, contradicting the claim that both identities survive. -/
theorem addChild_kind_conflict_counterexample :
    (addChild [TTree.tcase "a" locEx1 0] (TTree.tsuite "a" locEx2 [])).children =
      [TTree.tsuite "a" locEx2 []] ∧
    TTree.tcase "a" locEx1 0 ∉
      (addChild [TTree.tcase "a" locEx1 0] (TTree.tsuite "a" locEx2 [])).children := by
  have h : (addChild [TTree.tcase "a" locEx1 0] (TTree.tsuite "a" locEx2 [])).children =
      [TTree.tsuite "a" locEx2 []] := by rfl
  refine ⟨h, ?_⟩
  rw [h]
  simp

/-- Claim C7 (amended): when the candidate's kind differs from that of the
existing same-label sibling, `addChild` falls through to `Map.set`: the
candidate replaces the pre-existing node in place (the pre-existing node's
identity is dropped) and the candidate is returned with `changed = false`. -/
theorem addChild_kind_conflict_replaces (cs : List TTree) (cand ex : TTree)
    (hlk : lookupChild cand.label cs = some ex)
    (hkind : ex.isCase ≠ cand.isCase) :
    addChild cs cand = ⟨setChild cand.label cand cs, cand, false, true⟩ := by
  cases ex with
  | tcase l loc g =>
    cases cand with
    | tcase l2 loc2 g2 => simp [TTree.isCase] at hkind
    | tsuite l2 loc2 cc2 =>
      simp only [addChild]
      rw [hlk]
  | tsuite l loc cc =>
    cases cand with
    | tsuite l2 loc2 cc2 => simp [TTree.isCase] at hkind
    | tcase l2 loc2 g2 =>
      simp only [addChild]
      rw [hlk]

/-- Concrete instantiation of `addChild_kind_conflict_replaces`. -/
theorem addChild_kind_conflict_replaces_witness :
    addChild [TTree.tcase "a" locEx1 0] (TTree.tsuite "a" locEx2 []) =
      ⟨[TTree.tsuite "a" locEx2 []], TTree.tsuite "a" locEx2 [], false, true⟩ := by
  have h := addChild_kind_conflict_replaces [TTree.tcase "a" locEx1 0]
    (TTree.tsuite "a" locEx2 []) (TTree.tcase "a" locEx1 0) (by rfl) (by decide)
  rw [h]
  rfl

/-- A node of the tree is identified by its label path from the root.  The
source's change accumulator `Set<VSCodeTest>` holds object references; since
sibling labels are the unique map keys, a node's identity is its label path. -/
abbrev TPath := List String

/-- `Set.add`. -/
def setAddP (s : List TPath) (x : TPath) : List TPath :=
  if x ∈ s then s else s ++ [x]

/-- `Set.delete`. -/
def setDelP (s : List TPath) (x : TPath) : List TPath :=
  s.filter (fun q => q ≠ x)

/-- Embeds the loop body of `TestItemWithChildren.prune` (testTree.ts) over
the `childrenByName` entries of a node with label path `selfPath`: a `Case`
located in `inFile` with a generation below `generation` is deleted and
`this` recorded as changed; a `Suite` is pruned recursively and, when left
childless, deleted, removed from the change set, and `this` recorded as
changed.  Returns the surviving children and the updated change set. -/
def pruneChildren (selfPath : TPath) (inFile : String) (generation : Nat) :
    List TTree → List TPath → List TTree × List TPath
  | [], ch => ([], ch)
  | TTree.tcase l loc g :: rest, ch =>
    if loc.uri = inFile ∧ g < generation then
      pruneChildren selfPath inFile generation rest (setAddP ch selfPath)
    else
      let r := pruneChildren selfPath inFile generation rest ch
      (TTree.tcase l loc g :: r.1, r.2)
  | TTree.tsuite l loc cc :: rest, ch =>
    let inner := pruneChildren (selfPath ++ [l]) inFile generation cc ch
    if inner.1.isEmpty then
      pruneChildren selfPath inFile generation rest
        (setAddP (setDelP inner.2 (selfPath ++ [l])) selfPath)
    else
      let r := pruneChildren selfPath inFile generation rest inner.2
      (TTree.tsuite l loc inner.1 :: r.1, r.2)

/-- `TestItemWithChildren.prune` on a whole node: prune the children, then
report `childrenByName.size > 0`. -/
def pruneNode (selfPath : TPath) (inFile : String) (generation : Nat)
    (cs : List TTree) (ch : List TPath) : List TTree × List TPath × Bool :=
  let r := pruneChildren selfPath inFile generation cs ch
  (r.1, r.2, decide (0 < r.1.length))

mutual

/-- Modelled from the claim's wording, for comparison with `pruneChildren`:
the node kept by a prune pass, if any — a `Case` survives unless it lies in
the pruned file with a stale generation, a `Suite` survives with its children
recursively pruned unless that leaves it empty. -/
def pruneKeep (inFile : String) (generation : Nat) : TTree → Option TTree
  | TTree.tcase l loc g =>
    if loc.uri = inFile ∧ g < generation then none else some (TTree.tcase l loc g)
  | TTree.tsuite l loc cc =>
    let kept := pruneKeepList inFile generation cc
    if kept.isEmpty then none else some (TTree.tsuite l loc kept)

/-- `pruneKeep` mapped over a children list. -/
def pruneKeepList (inFile : String) (generation : Nat) : List TTree → List TTree
  | [] => []
  | c :: cs =>
    match pruneKeep inFile generation c with
    | none => pruneKeepList inFile generation cs
    | some c2 => c2 :: pruneKeepList inFile generation cs

end

/-- The surviving children computed by `pruneChildren` match the pure
recursive description and do not depend on the change accumulator. -/
theorem pruneChildren_fst (selfPath : TPath) (inFile : String) (generation : Nat)
    (cs : List TTree) (ch : List TPath) :
    (pruneChildren selfPath inFile generation cs ch).1 =
      pruneKeepList inFile generation cs := by
  induction selfPath, inFile, generation, cs, ch using pruneChildren.induct with
  | case1 p f g ch => simp [pruneChildren, pruneKeepList]
  | case2 p f gen l loc g rest ch hst ih =>
    simp only [pruneChildren, if_pos hst, pruneKeepList, pruneKeep, ih]
  | case3 p f gen l loc g rest ch hst ih =>
    simp only [pruneChildren, pruneKeepList, pruneKeep, if_neg hst, ih]
  | case4 p f gen l loc cc rest ch inner hEmpty ihInner ihRest =>
    have hE : (pruneChildren (p ++ [l]) f gen cc ch).1.isEmpty = true := hEmpty
    simp only [pruneChildren, if_pos hE, pruneKeepList, pruneKeep]
    rw [ihInner] at hE
    rw [if_pos hE]
    exact ihRest
  | case5 p f gen l loc cc rest ch inner hEmpty ihInner ihRest =>
    have hE : ¬(pruneChildren (p ++ [l]) f gen cc ch).1.isEmpty = true := hEmpty
    simp only [pruneChildren, if_neg hE, pruneKeepList, pruneKeep]
    rw [ihInner] at hE
    rw [if_neg hE]
    simp only [ihInner, ihRest]

theorem mem_setAddP (s : List TPath) (x q : TPath) :
    q ∈ setAddP s x ↔ q ∈ s ∨ q = x := by
  unfold setAddP
  by_cases hx : x ∈ s
  · rw [if_pos hx]
    constructor
    · exact Or.inl
    · rintro (h | rfl)
      · exact h
      · exact hx
  · rw [if_neg hx]
    simp

theorem mem_setDelP (s : List TPath) (x q : TPath) :
    q ∈ setDelP s x ↔ q ∈ s ∧ q ≠ x := by
  unfold setDelP
  simp

/-- Label paths of every suite occurring in a forest rooted at path `p`. -/
def suitePathsUnder (p : TPath) : List TTree → List TPath
  | [] => []
  | TTree.tcase _ _ _ :: rest => suitePathsUnder p rest
  | TTree.tsuite l _ cc :: rest =>
    (p ++ [l]) :: (suitePathsUnder (p ++ [l]) cc ++ suitePathsUnder p rest)

theorem suitePathsUnder_length (p : TPath) (cs : List TTree) :
    ∀ q ∈ suitePathsUnder p cs, p.length < q.length := by
  induction p, cs using suitePathsUnder.induct with
  | case1 p =>
    intro q hq
    simp only [suitePathsUnder] at hq
    cases hq
  | case2 p l loc g rest ih =>
    intro q hq
    simp only [suitePathsUnder] at hq
    exact ih q hq
  | case3 p l loc cc rest ihIn ihRest =>
    intro q hq
    simp only [suitePathsUnder, List.mem_cons, List.mem_append] at hq
    rcases hq with rfl | hq | hq
    · simp
    · have := ihIn q hq
      simp only [List.length_append, List.length_singleton] at this
      omega
    · exact ihRest q hq

theorem suitePathsUnder_succ_mem (p : TPath) (cs : List TTree) :
    ∀ q ∈ suitePathsUnder p cs, q.length = p.length + 1 →
      ∃ l loc cc, TTree.tsuite l loc cc ∈ cs ∧ q = p ++ [l] := by
  induction p, cs using suitePathsUnder.induct with
  | case1 p =>
    intro q hq _
    simp only [suitePathsUnder] at hq
    cases hq
  | case2 p l loc g rest ih =>
    intro q hq hlen
    simp only [suitePathsUnder] at hq
    obtain ⟨l2, loc2, cc2, hmem, hq2⟩ := ih q hq hlen
    exact ⟨l2, loc2, cc2, List.mem_cons_of_mem _ hmem, hq2⟩
  | case3 p l loc cc rest ihIn ihRest =>
    intro q hq hlen
    simp only [suitePathsUnder, List.mem_cons, List.mem_append] at hq
    rcases hq with rfl | hq | hq
    · exact ⟨l, loc, cc, List.mem_cons_self _ _, rfl⟩
    · have := suitePathsUnder_length (p ++ [l]) cc q hq
      simp only [List.length_append, List.length_singleton] at this
      omega
    · obtain ⟨l2, loc2, cc2, hmem, hq2⟩ := ihRest q hq hlen
      exact ⟨l2, loc2, cc2, List.mem_cons_of_mem _ hmem, hq2⟩

/-- Every path in the change set produced by `pruneChildren` was already
present, is the pruned node's own path, or is the path of a suite below it. -/
theorem pruneChildren_snd_mem (p : TPath) (f : String) (g : Nat)
    (cs : List TTree) (ch : List TPath) :
    ∀ q ∈ (pruneChildren p f g cs ch).2,
      q ∈ ch ∨ q = p ∨ q ∈ suitePathsUnder p cs := by
  induction p, f, g, cs, ch using pruneChildren.induct with
  | case1 p f g ch =>
    intro q hq
    simp only [pruneChildren] at hq
    exact Or.inl hq
  | case2 p f gen l loc g rest ch hst ih =>
    intro q hq
    simp only [pruneChildren, if_pos hst] at hq
    simp only [suitePathsUnder]
    rcases ih q hq with h | h | h
    · rcases (mem_setAddP ch p q).mp h with h2 | h2
      · exact Or.inl h2
      · exact Or.inr (Or.inl h2)
    · exact Or.inr (Or.inl h)
    · exact Or.inr (Or.inr h)
  | case3 p f gen l loc g rest ch hst ih =>
    intro q hq
    simp only [pruneChildren, if_neg hst] at hq
    simp only [suitePathsUnder]
    rcases ih q hq with h | h | h
    · exact Or.inl h
    · exact Or.inr (Or.inl h)
    · exact Or.inr (Or.inr h)
  | case4 p f gen l loc cc rest ch inner hEmpty ihInner ihRest =>
    intro q hq
    have hE : (pruneChildren (p ++ [l]) f gen cc ch).1.isEmpty = true := hEmpty
    simp only [pruneChildren, if_pos hE] at hq
    simp only [suitePathsUnder, List.mem_cons, List.mem_append]
    rcases ihRest q hq with h | h | h
    · rcases (mem_setAddP _ p q).mp h with h2 | h2
      · have h3 := (mem_setDelP _ _ q).mp h2
        rcases ihInner q h3.1 with h4 | h4 | h4
        · exact Or.inl h4
        · exact Or.inr (Or.inr (Or.inl h4))
        · exact Or.inr (Or.inr (Or.inr (Or.inl h4)))
      · exact Or.inr (Or.inl h2)
    · exact Or.inr (Or.inl h)
    · exact Or.inr (Or.inr (Or.inr (Or.inr h)))
  | case5 p f gen l loc cc rest ch inner hEmpty ihInner ihRest =>
    intro q hq
    have hE : ¬(pruneChildren (p ++ [l]) f gen cc ch).1.isEmpty = true := hEmpty
    simp only [pruneChildren, if_neg hE] at hq
    simp only [suitePathsUnder, List.mem_cons, List.mem_append]
    rcases ihRest q hq with h | h | h
    · rcases ihInner q h with h2 | h2 | h2
      · exact Or.inl h2
      · exact Or.inr (Or.inr (Or.inl h2))
      · exact Or.inr (Or.inr (Or.inr (Or.inl h2)))
    · exact Or.inr (Or.inl h)
    · exact Or.inr (Or.inr (Or.inr (Or.inr h)))

/-- A path no longer than the pruned node's own path survives in the change
set: pruning only ever deletes the (strictly longer) paths of removed
suites. -/
theorem pruneChildren_snd_keep (p : TPath) (f : String) (g : Nat)
    (cs : List TTree) (ch : List TPath) :
    ∀ q ∈ ch, q.length ≤ p.length → q ∈ (pruneChildren p f g cs ch).2 := by
  induction p, f, g, cs, ch using pruneChildren.induct with
  | case1 p f g ch =>
    intro q hq _
    simp only [pruneChildren]
    exact hq
  | case2 p f gen l loc g rest ch hst ih =>
    intro q hq hlen
    simp only [pruneChildren, if_pos hst]
    exact ih q ((mem_setAddP ch p q).mpr (Or.inl hq)) hlen
  | case3 p f gen l loc g rest ch hst ih =>
    intro q hq hlen
    simp only [pruneChildren, if_neg hst]
    exact ih q hq hlen
  | case4 p f gen l loc cc rest ch inner hEmpty ihInner ihRest =>
    intro q hq hlen
    have hE : (pruneChildren (p ++ [l]) f gen cc ch).1.isEmpty = true := hEmpty
    simp only [pruneChildren, if_pos hE]
    have h1 : q ∈ (pruneChildren (p ++ [l]) f gen cc ch).2 := by
      refine ihInner q hq ?_
      simp only [List.length_append, List.length_singleton]
      omega
    have h2 : q ∈ setDelP (pruneChildren (p ++ [l]) f gen cc ch).2 (p ++ [l]) := by
      refine (mem_setDelP _ _ q).mpr ⟨h1, ?_⟩
      intro hcon
      have : q.length = p.length + 1 := by
        rw [hcon]
        simp
      omega
    exact ihRest q ((mem_setAddP _ p q).mpr (Or.inl h2)) hlen
  | case5 p f gen l loc cc rest ch inner hEmpty ihInner ihRest =>
    intro q hq hlen
    have hE : ¬(pruneChildren (p ++ [l]) f gen cc ch).1.isEmpty = true := hEmpty
    simp only [pruneChildren, if_neg hE]
    have h1 : q ∈ (pruneChildren (p ++ [l]) f gen cc ch).2 := by
      refine ihInner q hq ?_
      simp only [List.length_append, List.length_singleton]
      omega
    exact ihRest q h1 hlen

/-- Whenever `prune` removes a direct child (a stale case, or a suite left
empty), the pruned node's own path is recorded in the change set. -/
theorem pruneChildren_parent_recorded (p : TPath) (f : String) (g : Nat)
    (cs : List TTree) (ch : List TPath) :
    (∃ c ∈ cs, pruneKeep f g c = none) → p ∈ (pruneChildren p f g cs ch).2 := by
  induction p, f, g, cs, ch using pruneChildren.induct with
  | case1 p f g ch =>
    rintro ⟨c, hc, _⟩
    cases hc
  | case2 p f gen l loc g rest ch hst ih =>
    intro _
    simp only [pruneChildren, if_pos hst]
    exact pruneChildren_snd_keep p f gen rest _ p
      ((mem_setAddP ch p p).mpr (Or.inr rfl)) le_rfl
  | case3 p f gen l loc g rest ch hst ih =>
    rintro ⟨c, hc, hnone⟩
    simp only [pruneChildren, if_neg hst]
    rcases List.mem_cons.mp hc with rfl | hc2
    · simp only [pruneKeep, if_neg hst] at hnone
      cases hnone
    · exact ih ⟨c, hc2, hnone⟩
  | case4 p f gen l loc cc rest ch inner hEmpty ihInner ihRest =>
    intro _
    have hE : (pruneChildren (p ++ [l]) f gen cc ch).1.isEmpty = true := hEmpty
    simp only [pruneChildren, if_pos hE]
    exact pruneChildren_snd_keep p f gen rest _ p
      ((mem_setAddP _ p p).mpr (Or.inr rfl)) le_rfl
  | case5 p f gen l loc cc rest ch inner hEmpty ihInner ihRest =>
    rintro ⟨c, hc, hnone⟩
    have hE : ¬(pruneChildren (p ++ [l]) f gen cc ch).1.isEmpty = true := hEmpty
    simp only [pruneChildren, if_neg hE]
    rcases List.mem_cons.mp hc with rfl | hc2
    · exfalso
      apply hE
      rw [pruneChildren_fst]
      simp only [pruneKeep] at hnone
      by_cases hk : (pruneKeepList f gen cc).isEmpty = true
      · exact hk
      · rw [if_neg hk] at hnone
        cases hnone
    · exact ihRest ⟨c, hc2, hnone⟩

/-- A suite that `prune` removes (because it was left empty) is itself
deleted from the change set and never re-added, provided sibling labels are
unique (as the `Map` keying guarantees). -/
theorem pruneChildren_removed_suite_dropped (p : TPath) (f : String) (g : Nat)
    (cs : List TTree) (ch : List TPath) :
    ∀ l loc cc, pruneKeepList f g cc = [] → TTree.tsuite l loc cc ∈ cs →
      (cs.map TTree.label).Nodup →
      (p ++ [l]) ∉ (pruneChildren p f g cs ch).2 := by
  induction p, f, g, cs, ch using pruneChildren.induct with
  | case1 p f g ch =>
    intro l loc cc _ hmem _
    cases hmem
  | case2 p f gen l0 loc0 g0 rest ch hst ih =>
    intro l loc cc hempty hmem hnodup
    have hnodup2 : (∀ x ∈ rest, ¬TTree.label x = l0) ∧
        (rest.map TTree.label).Nodup := by
      simpa [TTree.label] using hnodup
    simp only [pruneChildren, if_pos hst]
    rcases List.mem_cons.mp hmem with heq | hmem2
    · cases heq
    · exact ih l loc cc hempty hmem2 hnodup2.2
  | case3 p f gen l0 loc0 g0 rest ch hst ih =>
    intro l loc cc hempty hmem hnodup
    have hnodup2 : (∀ x ∈ rest, ¬TTree.label x = l0) ∧
        (rest.map TTree.label).Nodup := by
      simpa [TTree.label] using hnodup
    simp only [pruneChildren, if_neg hst]
    rcases List.mem_cons.mp hmem with heq | hmem2
    · cases heq
    · exact ih l loc cc hempty hmem2 hnodup2.2
  | case4 p f gen l0 loc0 cc0 rest ch inner hEmpty ihInner ihRest =>
    intro l loc cc hempty hmem hnodup
    have hE : (pruneChildren (p ++ [l0]) f gen cc0 ch).1.isEmpty = true := hEmpty
    have hnodup2 : (∀ x ∈ rest, ¬TTree.label x = l0) ∧
        (rest.map TTree.label).Nodup := by
      simpa [TTree.label] using hnodup
    simp only [pruneChildren, if_pos hE]
    rcases List.mem_cons.mp hmem with heq | hmem2
    · injection heq with hl hloc hcc
      subst hl
      intro hq
      rcases pruneChildren_snd_mem p f gen rest _ _ hq with h | h | h
      · rcases (mem_setAddP _ p _).mp h with h2 | h2
        · exact ((mem_setDelP _ _ _).mp h2).2 rfl
        · have hcon : (p ++ [l]).length = p.length := by rw [h2]
          simp at hcon
      · have hcon : (p ++ [l]).length = p.length := by rw [h]
        simp at hcon
      · obtain ⟨l2, loc2, cc2, hmem3, heq2⟩ :=
          suitePathsUnder_succ_mem p rest _ h (by simp)
        have hl2 : l = l2 := by
          have h5 : p ++ [l] = p ++ [l2] := heq2
          have h6 : [l] = [l2] := by
            exact List.append_cancel_left h5
          injection h6 with h7 _
        subst hl2
        exact hnodup2.1 (TTree.tsuite l loc2 cc2) hmem3 (by simp [TTree.label])
    · exact ihRest l loc cc hempty hmem2 hnodup2.2
  | case5 p f gen l0 loc0 cc0 rest ch inner hEmpty ihInner ihRest =>
    intro l loc cc hempty hmem hnodup
    have hE : ¬(pruneChildren (p ++ [l0]) f gen cc0 ch).1.isEmpty = true := hEmpty
    have hnodup2 : (∀ x ∈ rest, ¬TTree.label x = l0) ∧
        (rest.map TTree.label).Nodup := by
      simpa [TTree.label] using hnodup
    simp only [pruneChildren, if_neg hE]
    rcases List.mem_cons.mp hmem with heq | hmem2
    · exfalso
      apply hE
      injection heq with hl hloc hcc
      subst hl
      subst hcc
      rw [pruneChildren_fst, hempty]
      rfl
    · exact ihRest l loc cc hempty hmem2 hnodup2.2

theorem pruneKeepList_mem (f : String) (g : Nat) (cs : List TTree) (x : TTree) :
    x ∈ pruneKeepList f g cs → ∃ c ∈ cs, pruneKeep f g c = some x := by
  induction cs with
  | nil => intro h; cases h
  | cons c rest ih =>
    intro h
    simp only [pruneKeepList] at h
    cases hk : pruneKeep f g c with
    | none =>
      rw [hk] at h
      obtain ⟨c2, hc2, hc3⟩ := ih h
      exact ⟨c2, List.mem_cons_of_mem _ hc2, hc3⟩
    | some y =>
      rw [hk] at h
      rcases List.mem_cons.mp h with rfl | h2
      · exact ⟨c, List.mem_cons_self _ _, hk⟩
      · obtain ⟨c2, hc2, hc3⟩ := ih h2
        exact ⟨c2, List.mem_cons_of_mem _ hc2, hc3⟩

/-- Demo tree for the C2 witness: a stale case `x` in the pruned file and a
suite `s` whose only child is a stale case, so the suite is removed too. -/
def demoPruneForest : List TTree :=
  [TTree.tcase "x" locEx1 0,
   TTree.tsuite "s" locEx2 [TTree.tcase "y" locEx1 0]]

/-- Claim C2: after `prune(fileURI, generation, changes)` on a node, (1) the
surviving children are exactly those of the recursive description — every
child case located in the file with a stale generation is gone, every child
suite is recursively pruned and dropped when empty; (2) whenever a direct
child was removed, the node itself is recorded in the change accumulator;
(3) a removed child suite is itself absent from the final accumulator; and
(4) `prune` returns `true` exactly when children remain. -/
theorem prune_spec_c2 (p : TPath) (f : String) (g : Nat) (cs : List TTree)
    (ch : List TPath) :
    ((pruneNode p f g cs ch).1 = pruneKeepList f g cs ∧
      ∀ l loc gg, TTree.tcase l loc gg ∈ cs → loc.uri = f → gg < g →
        TTree.tcase l loc gg ∉ (pruneNode p f g cs ch).1) ∧
    ((∃ c ∈ cs, pruneKeep f g c = none) → p ∈ (pruneNode p f g cs ch).2.1) ∧
    (∀ l loc cc, TTree.tsuite l loc cc ∈ cs → pruneKeepList f g cc = [] →
      (cs.map TTree.label).Nodup → (p ++ [l]) ∉ (pruneNode p f g cs ch).2.1) ∧
    ((pruneNode p f g cs ch).2.2 = true ↔ (pruneNode p f g cs ch).1 ≠ []) := by
  refine ⟨⟨?_, ?_⟩, ?_, ?_, ?_⟩
  · exact pruneChildren_fst p f g cs ch
  · intro l loc gg _ huri hgen hmem
    rw [pruneNode] at hmem
    simp only at hmem
    rw [pruneChildren_fst] at hmem
    obtain ⟨c, _, hkeep⟩ := pruneKeepList_mem f g cs _ hmem
    cases c with
    | tcase l2 loc2 g2 =>
      simp only [pruneKeep] at hkeep
      by_cases hc : loc2.uri = f ∧ g2 < g
      · rw [if_pos hc] at hkeep
        cases hkeep
      · rw [if_neg hc] at hkeep
        injection hkeep with hk
        injection hk with hk1 hk2 hk3
        subst hk1
        subst hk2
        subst hk3
        exact hc ⟨huri, hgen⟩
    | tsuite l2 loc2 cc2 =>
      simp only [pruneKeep] at hkeep
      by_cases hc : (pruneKeepList f g cc2).isEmpty = true
      · rw [if_pos hc] at hkeep
        cases hkeep
      · rw [if_neg hc] at hkeep
        injection hkeep with hk
        cases hk
  · exact pruneChildren_parent_recorded p f g cs ch
  · intro l loc cc hmem hempty hnodup
    exact pruneChildren_removed_suite_dropped p f g cs ch l loc cc hempty hmem hnodup
  · simp only [pruneNode]
    constructor
    · intro h hcon
      rw [hcon] at h
      simp at h
    · intro h
      cases hl : (pruneChildren p f g cs ch).1 with
      | nil => exact absurd hl h
      | cons a rest => simp [hl]

/-- Concrete instantiation of `prune_spec_c2` on `demoPruneForest`: pruning
file `a.test.ts` at generation 1 removes the stale case and the emptied
suite, records the parent in the change set, and drops the suite's own path
from it. -/
theorem prune_spec_c2_witness :
    ([] : TPath) ∈ (pruneNode [] "file:///a.test.ts" 1 demoPruneForest []).2.1 ∧
    (["s"] : TPath) ∉ (pruneNode [] "file:///a.test.ts" 1 demoPruneForest []).2.1 := by
  constructor
  · exact (prune_spec_c2 [] "file:///a.test.ts" 1 demoPruneForest []).2.1
      ⟨TTree.tcase "x" locEx1 0, List.mem_cons_self _ _, by rfl⟩
  · exact (prune_spec_c2 [] "file:///a.test.ts" 1 demoPruneForest []).2.2.1
      "s" locEx2 [TTree.tcase "y" locEx1 0]
      (List.mem_cons_of_mem _ (List.mem_cons_self _ _)) (by rfl) (by decide)

/-- A fragment of the TypeScript AST, shaped after exactly the node kinds
`extractTestFromNode` (extractTestsTs.ts / sourceUtils.ts) distinguishes:
identifiers, string-literal-likes, function-likes (arrow / function
expression / method), call expressions, and all other nodes, which matter
only through their children.  `stringLit.pos` embeds the node's `pos` and
`funcLike.stop` the node's `end` (byte offsets into the file). -/
inductive TsNode where
  | ident (text : String)
  | stringLit (text : String) (pos : Nat) (stop : Nat)
  | funcLike (pos : Nat) (stop : Nat) (body : List TsNode)
  | callExpr (callee : TsNode) (args : List TsNode)
  | other (children : List TsNode)

/-- Kind of a recognized declaration: `test(...)` or `suite`/`flakySuite`. -/
inductive ExtractedKind where
  | kcase
  | ksuite
deriving DecidableEq, Repr

/-- A recognized declaration: kind, name text, and source range. -/
structure Extracted where
  kind : ExtractedKind
  name : String
  range : VRange
deriving DecidableEq, Repr

/-- `const suiteNames = new Set(['suite', 'flakySuite'])`. -/
def suiteNames : List String := ["suite", "flakySuite"]

/-- Embeds `extractTestFromNode`: recognizes a direct call expression whose
callee is a plain identifier, whose first argument is a string literal and
whose second is function-like; the range runs from the name literal's `pos`
to the function's `end`, both converted through the file's
`getLineAndCharacterOfPosition` (the parameter `lc`).  `test` yields a case,
`suite`/`flakySuite` a suite; anything else yields no match.  The function is
total by construction — malformed nodes produce `none`, never an error. -/
def extractTestFromNode (lc : Nat → Pos) (n : TsNode) : Option Extracted :=
  match n with
  | TsNode.callExpr lhs args =>
    match lhs, args[0]?, args[1]? with
    | TsNode.ident f, some (TsNode.stringLit nm npos _),
        some (TsNode.funcLike _ fstop _) =>
      let range : VRange := ⟨lc npos, lc fstop⟩
      if f = "test" then some ⟨ExtractedKind.kcase, nm, range⟩
      else if f ∈ suiteNames then some ⟨ExtractedKind.ksuite, nm, range⟩
      else none
    | _, _, _ => none
  | _ => none

/-- Claim C6: `extractTestFromNode` returns a case match exactly for
`test("name", function)` calls and a suite match exactly for `suite` or
`flakySuite` calls of that shape; every other node — a non-call, a call with
a non-identifier callee, a missing argument, a non-string first argument or a
non-function second argument — produces no match (and the embedding is a
total function, so no input raises). -/
theorem extractTestFromNode_characterization (lc : Nat → Pos) (n : TsNode) :
    (∀ nm r, extractTestFromNode lc n = some ⟨ExtractedKind.kcase, nm, r⟩ ↔
      ∃ args npos nstop fpos fstop body,
        n = TsNode.callExpr (TsNode.ident "test") args ∧
        args[0]? = some (TsNode.stringLit nm npos nstop) ∧
        args[1]? = some (TsNode.funcLike fpos fstop body) ∧
        r = ⟨lc npos, lc fstop⟩) ∧
    (∀ nm r, extractTestFromNode lc n = some ⟨ExtractedKind.ksuite, nm, r⟩ ↔
      ∃ f args npos nstop fpos fstop body,
        (f = "suite" ∨ f = "flakySuite") ∧
        n = TsNode.callExpr (TsNode.ident f) args ∧
        args[0]? = some (TsNode.stringLit nm npos nstop) ∧
        args[1]? = some (TsNode.funcLike fpos fstop body) ∧
        r = ⟨lc npos, lc fstop⟩) := by
  constructor
  · intro nm r
    constructor
    · intro h
      cases n with
      | callExpr lhs args =>
        cases lhs with
        | ident f =>
          cases h0 : args[0]? with
          | none => simp [extractTestFromNode, h0] at h
          | some a0 =>
            cases a0 with
            | stringLit nm0 npos nstop =>
              cases h1 : args[1]? with
              | none => simp [extractTestFromNode, h0, h1] at h
              | some a1 =>
                cases a1 with
                | funcLike fpos fstop body =>
                  simp only [extractTestFromNode, h0, h1] at h
                  by_cases hf : f = "test"
                  · rw [if_pos hf] at h
                    injection h with h2
                    injection h2 with hk hn hr
                    subst hf
                    subst hn
                    exact ⟨args, npos, nstop, fpos, fstop, body, rfl, h0, h1, hr.symm⟩
                  · rw [if_neg hf] at h
                    by_cases hs : f ∈ suiteNames
                    · rw [if_pos hs] at h
                      injection h with h2
                      injection h2 with hk hn hr
                      cases hk
                    · rw [if_neg hs] at h
                      cases h
                | ident t => simp [extractTestFromNode, h0, h1] at h
                | stringLit t p q => simp [extractTestFromNode, h0, h1] at h
                | callExpr c a => simp [extractTestFromNode, h0, h1] at h
                | other c => simp [extractTestFromNode, h0, h1] at h
            | ident t => simp [extractTestFromNode, h0] at h
            | funcLike p q b => simp [extractTestFromNode, h0] at h
            | callExpr c a => simp [extractTestFromNode, h0] at h
            | other c => simp [extractTestFromNode, h0] at h
        | stringLit t p q => simp [extractTestFromNode] at h
        | funcLike p q b => simp [extractTestFromNode] at h
        | callExpr c a => simp [extractTestFromNode] at h
        | other c => simp [extractTestFromNode] at h
      | ident t => simp [extractTestFromNode] at h
      | stringLit t p q => simp [extractTestFromNode] at h
      | funcLike p q b => simp [extractTestFromNode] at h
      | other c => simp [extractTestFromNode] at h
    · rintro ⟨args, npos, nstop, fpos, fstop, body, rfl, h0, h1, rfl⟩
      simp [extractTestFromNode, h0, h1]
  · intro nm r
    constructor
    · intro h
      cases n with
      | callExpr lhs args =>
        cases lhs with
        | ident f =>
          cases h0 : args[0]? with
          | none => simp [extractTestFromNode, h0] at h
          | some a0 =>
            cases a0 with
            | stringLit nm0 npos nstop =>
              cases h1 : args[1]? with
              | none => simp [extractTestFromNode, h0, h1] at h
              | some a1 =>
                cases a1 with
                | funcLike fpos fstop body =>
                  simp only [extractTestFromNode, h0, h1] at h
                  by_cases hf : f = "test"
                  · rw [if_pos hf] at h
                    injection h with h2
                    injection h2 with hk hn hr
                    cases hk
                  · rw [if_neg hf] at h
                    by_cases hs : f ∈ suiteNames
                    · rw [if_pos hs] at h
                      injection h with h2
                      injection h2 with hk hn hr
                      subst hn
                      refine ⟨f, args, npos, nstop, fpos, fstop, body, ?_, rfl, h0, h1, hr.symm⟩
                      simpa [suiteNames] using hs
                    · rw [if_neg hs] at h
                      cases h
                | ident t => simp [extractTestFromNode, h0, h1] at h
                | stringLit t p q => simp [extractTestFromNode, h0, h1] at h
                | callExpr c a => simp [extractTestFromNode, h0, h1] at h
                | other c => simp [extractTestFromNode, h0, h1] at h
            | ident t => simp [extractTestFromNode, h0] at h
            | funcLike p q b => simp [extractTestFromNode, h0] at h
            | callExpr c a => simp [extractTestFromNode, h0] at h
            | other c => simp [extractTestFromNode, h0] at h
        | stringLit t p q => simp [extractTestFromNode] at h
        | funcLike p q b => simp [extractTestFromNode] at h
        | callExpr c a => simp [extractTestFromNode] at h
        | other c => simp [extractTestFromNode] at h
      | ident t => simp [extractTestFromNode] at h
      | stringLit t p q => simp [extractTestFromNode] at h
      | funcLike p q b => simp [extractTestFromNode] at h
      | other c => simp [extractTestFromNode] at h
    · rintro ⟨f, args, npos, nstop, fpos, fstop, body, hfs, rfl, h0, h1, rfl⟩
      simp only [extractTestFromNode, h0, h1]
      have hnf : ¬f = "test" := by
        rcases hfs with rfl | rfl
        · decide
        · decide
      rw [if_neg hnf, if_pos (by rcases hfs with rfl | rfl <;> simp [suiteNames])]

/-- A sample recognized call `test("name", () => ...)` for witnesses. -/
def demoCall : TsNode :=
  TsNode.callExpr (TsNode.ident "test")
    [TsNode.stringLit "name" 5 12, TsNode.funcLike 14 40 []]

/-- A sample line/character table for witnesses: offset `k` maps to line 0,
character `k`. -/
def demoLc : Nat → Pos := fun k => ⟨0, k⟩

/-- Concrete instantiation of `extractTestFromNode_characterization`. -/
theorem extractTestFromNode_characterization_witness :
    extractTestFromNode demoLc demoCall =
      some ⟨ExtractedKind.kcase, "name", ⟨⟨0, 5⟩, ⟨0, 40⟩⟩⟩ := by
  exact ((extractTestFromNode_characterization demoLc demoCall).1 "name"
    ⟨⟨0, 5⟩, ⟨0, 40⟩⟩).mpr
    ⟨[TsNode.stringLit "name" 5 12, TsNode.funcLike 14 40 []], 5, 12, 14, 40, [],
      rfl, rfl, rfl, rfl⟩

/-- Claim C9: whenever `extractTestFromNode` recognizes a declaration, the
resulting range starts exactly at the name literal's start position and ends
exactly at the function argument's end position, in the file's line/character
coordinates. -/
theorem extract_range_endpoints (lc : Nat → Pos) (n : TsNode) (e : Extracted)
    (h : extractTestFromNode lc n = some e) :
    ∃ lhs args nm npos nstop fpos fstop body,
      n = TsNode.callExpr lhs args ∧
      args[0]? = some (TsNode.stringLit nm npos nstop) ∧
      args[1]? = some (TsNode.funcLike fpos fstop body) ∧
      e.range = ⟨lc npos, lc fstop⟩ := by
  cases he : e.kind with
  | kcase =>
    have h2 : extractTestFromNode lc n = some ⟨ExtractedKind.kcase, e.name, e.range⟩ := by
      rw [h]
      cases e
      simp only at he
      rw [he]
    obtain ⟨args, npos, nstop, fpos, fstop, body, hn, h0, h1, hr⟩ :=
      ((extractTestFromNode_characterization lc n).1 e.name e.range).mp h2
    exact ⟨TsNode.ident "test", args, e.name, npos, nstop, fpos, fstop, body, hn, h0, h1, hr⟩
  | ksuite =>
    have h2 : extractTestFromNode lc n = some ⟨ExtractedKind.ksuite, e.name, e.range⟩ := by
      rw [h]
      cases e
      simp only at he
      rw [he]
    obtain ⟨f, args, npos, nstop, fpos, fstop, body, _, hn, h0, h1, hr⟩ :=
      ((extractTestFromNode_characterization lc n).2 e.name e.range).mp h2
    exact ⟨TsNode.ident f, args, e.name, npos, nstop, fpos, fstop, body, hn, h0, h1, hr⟩

/-- Concrete instantiation of `extract_range_endpoints` on `demoCall`. -/
theorem extract_range_endpoints_witness :
    ∃ lhs args nm npos nstop fpos fstop body,
      demoCall = TsNode.callExpr lhs args ∧
      args[0]? = some (TsNode.stringLit nm npos nstop) ∧
      args[1]? = some (TsNode.funcLike fpos fstop body) ∧
      (⟨⟨0, 5⟩, ⟨0, 40⟩⟩ : VRange) = ⟨demoLc npos, demoLc fstop⟩ := by
  obtain ⟨lhs, args, nm, npos, nstop, fpos, fstop, body, hn, h0, h1, hr⟩ :=
    extract_range_endpoints demoLc demoCall
      ⟨ExtractedKind.kcase, "name", ⟨⟨0, 5⟩, ⟨0, 40⟩⟩⟩ (by rfl)
  exact ⟨lhs, args, nm, npos, nstop, fpos, fstop, body, hn, h0, h1, hr⟩

/-- Build the tree candidate `extractTestsTs` constructs for a recognized
declaration: `onTestCase` / `onTestSuite` of `updateTestsInFile` create
`new TestCase(name, location, generation, ...)` (whose constructor replaces
an empty label with the sentinel placeholder) or
`new TestSuite(name, location, root)` with an empty child map. -/
def candOf (e : Extracted) (g : Nat) (file : String) : TTree :=
  match e.kind with
  | ExtractedKind.kcase =>
    TTree.tcase (if e.name = "" then "<empty>" else e.name) ⟨file, e.range⟩ g
  | ExtractedKind.ksuite => TTree.tsuite e.name ⟨file, e.range⟩ []

/-- The change-set bookkeeping after one `addChild` in the `traverse` closure
of `extractTestsTs`: `if (changed) changedTests.add(deduped)` and
`if (deduped === testItem) changedTests.add(parent)`. -/
def accAfterAdd (r : AddChildResult) (path : TPath) (acc : List TPath) :
    List TPath :=
  let acc1 := if r.changed then setAddP acc (path ++ [r.node.label]) else acc
  if r.isNew then setAddP acc1 path else acc1

mutual

/-- Embeds the `traverse` closure of `extractTestsTs` on one syntax node.
The state is the pair (children of the current parent — the top of the
`parents` stack, identified by `path` — and the accumulated changed paths).
A node with no match recurses into its children (`ts.forEachChild`, which
visits a call's callee and then its arguments); a matched case does not
recurse; a matched suite recurses into the call's children with the merged
suite as parent. -/
def traverseNode (g : Nat) (file : String) (lc : Nat → Pos) (path : TPath)
    (n : TsNode) (st : List TTree × List TPath) : List TTree × List TPath :=
  match n with
  | TsNode.ident _ => st
  | TsNode.stringLit _ _ _ => st
  | TsNode.funcLike _ _ body => traverseListTs g file lc path body st
  | TsNode.other cs => traverseListTs g file lc path cs st
  | TsNode.callExpr callee args =>
    match extractTestFromNode lc (TsNode.callExpr callee args) with
    | none =>
      traverseListTs g file lc path args (traverseNode g file lc path callee st)
    | some e =>
      let r := addChild st.1 (candOf e g file)
      let acc2 := accAfterAdd r path st.2
      match r.node with
      | TTree.tcase _ _ _ => (r.children, acc2)
      | TTree.tsuite l loc cc =>
        let sub := traverseListTs g file lc (path ++ [l]) args
          (traverseNode g file lc (path ++ [l]) callee (cc, acc2))
        (setChild l (TTree.tsuite l loc sub.1) r.children, sub.2)

/-- `traverseNode` folded over a sibling list. -/
def traverseListTs (g : Nat) (file : String) (lc : Nat → Pos) (path : TPath)
    (ns : List TsNode) (st : List TTree × List TPath) :
    List TTree × List TPath :=
  match ns with
  | [] => st
  | n :: rest =>
    traverseListTs g file lc path rest (traverseNode g file lc path n st)

end

/-- `updateTestsInFile`: run the extraction traversal over the parsed file
against the root's children, then `root.prune(file, thisGeneration, changes)`,
returning the new children and the accumulated change set. -/
def discoverFile (t0 : List TTree) (ast : List TsNode) (g : Nat)
    (file : String) (lc : Nat → Pos) : List TTree × List TPath :=
  let r := traverseListTs g file lc [] ast (t0, [])
  pruneChildren [] file g r.1 r.2

/-- The declaration forest of a file: the nesting structure of recognized
`test` / `suite` / `flakySuite` calls, abstracted away from the surrounding
syntax.  `traverseListTs` is proved to factor through it. -/
inductive DeclTree where
  | dcase (label : String) (loc : Loc)
  | dsuite (label : String) (loc : Loc) (children : List DeclTree)

def labelOfD : DeclTree → String
  | DeclTree.dcase l _ => l
  | DeclTree.dsuite l _ _ => l

def labelsOfF (F : List DeclTree) : List String := F.map labelOfD

mutual

/-- Declarations recognized at and below one syntax node, with the nesting
the traversal reconstructs (a matched case contributes a leaf and shields its
children; a matched suite nests its call's declarations; an unmatched node is
transparent). -/
def forestOfNode (file : String) (lc : Nat → Pos) (n : TsNode) :
    List DeclTree :=
  match n with
  | TsNode.ident _ => []
  | TsNode.stringLit _ _ _ => []
  | TsNode.funcLike _ _ body => forestOfList file lc body
  | TsNode.other cs => forestOfList file lc cs
  | TsNode.callExpr callee args =>
    match extractTestFromNode lc (TsNode.callExpr callee args) with
    | none => forestOfNode file lc callee ++ forestOfList file lc args
    | some e =>
      match e.kind with
      | ExtractedKind.kcase =>
        [DeclTree.dcase (if e.name = "" then "<empty>" else e.name)
          ⟨file, e.range⟩]
      | ExtractedKind.ksuite =>
        [DeclTree.dsuite e.name ⟨file, e.range⟩
          (forestOfNode file lc callee ++ forestOfList file lc args)]

def forestOfList (file : String) (lc : Nat → Pos) (ns : List TsNode) :
    List DeclTree :=
  match ns with
  | [] => []
  | n :: rest => forestOfNode file lc n ++ forestOfList file lc rest

end

/-- The candidate tree node of a declaration. -/
def candOfD (g : Nat) (d : DeclTree) : TTree :=
  match d with
  | DeclTree.dcase l loc => TTree.tcase l loc g
  | DeclTree.dsuite l loc _ => TTree.tsuite l loc []

mutual

/-- The traversal's effect of one declaration on the current parent's
children and the change accumulator (the decl-forest counterpart of
`traverseNode` on a matched call). -/
def mergeDecl (g : Nat) (path : TPath) (d : DeclTree)
    (st : List TTree × List TPath) : List TTree × List TPath :=
  match d with
  | DeclTree.dcase l loc =>
    let r := addChild st.1 (TTree.tcase l loc g)
    (r.children, accAfterAdd r path st.2)
  | DeclTree.dsuite l loc ds =>
    let r := addChild st.1 (TTree.tsuite l loc [])
    let acc2 := accAfterAdd r path st.2
    match r.node with
    | TTree.tcase _ _ _ => (r.children, acc2)
    | TTree.tsuite l2 loc2 cc =>
      let sub := mergeForest g (path ++ [l2]) ds (cc, acc2)
      (setChild l2 (TTree.tsuite l2 loc2 sub.1) r.children, sub.2)

/-- `mergeDecl` folded over a forest. -/
def mergeForest (g : Nat) (path : TPath) (F : List DeclTree)
    (st : List TTree × List TPath) : List TTree × List TPath :=
  match F with
  | [] => st
  | d :: ds => mergeForest g path ds (mergeDecl g path d st)

end

def labelsOfT (cs : List TTree) : List String := cs.map TTree.label

mutual

/-- Deep well-formedness of the map representation: sibling labels unique at
every level (what keying `childrenByName` by label guarantees). -/
def uniqTree : TTree → Prop
  | TTree.tcase _ _ _ => True
  | TTree.tsuite _ _ cc => uniqForest cc

def uniqForest : List TTree → Prop
  | [] => True
  | c :: cs => uniqTree c ∧ TTree.label c ∉ labelsOfT cs ∧ uniqForest cs

end

mutual

/-- The tree realizes a declaration at generation `g`: the entry at the
declaration's label is the declared case (stamped `g`) or the declared suite
with children realizing the nested declarations. -/
def realizesDecl (g : Nat) (cs : List TTree) : DeclTree → Prop
  | DeclTree.dcase l loc => lookupChild l cs = some (TTree.tcase l loc g)
  | DeclTree.dsuite l loc ds =>
    ∃ cc, lookupChild l cs = some (TTree.tsuite l loc cc) ∧
      realizesForest g cc ds

def realizesForest (g : Nat) (cs : List TTree) : List DeclTree → Prop
  | [] => True
  | d :: ds => realizesDecl g cs d ∧ realizesForest g cs ds

end

/-- First declared case with the given label. -/
def findDeclCase (l : String) : List DeclTree → Option Loc
  | [] => none
  | DeclTree.dcase l2 loc :: ds => if l2 = l then some loc else findDeclCase l ds
  | DeclTree.dsuite _ _ _ :: ds => findDeclCase l ds

/-- First declared suite with the given label. -/
def findDeclSuite (l : String) : List DeclTree → Option (Loc × List DeclTree)
  | [] => none
  | DeclTree.dcase _ _ :: ds => findDeclSuite l ds
  | DeclTree.dsuite l2 loc cc :: ds =>
    if l2 = l then some (loc, cc) else findDeclSuite l ds

mutual

/-- A declaration subtree contains at least one case. -/
def hasCaseDecl : DeclTree → Bool
  | DeclTree.dcase _ _ => true
  | DeclTree.dsuite _ _ ds => hasCaseForest ds

def hasCaseForest : List DeclTree → Bool
  | [] => false
  | d :: ds => hasCaseDecl d || hasCaseForest ds

end

mutual

/-- Well-formed declaration forest: sibling labels distinct at every level
and every suite transitively containing a case. -/
def wfDecl : DeclTree → Prop
  | DeclTree.dcase _ _ => True
  | DeclTree.dsuite _ _ ds => hasCaseForest ds = true ∧ wfForest ds

def wfForest : List DeclTree → Prop
  | [] => True
  | d :: ds => wfDecl d ∧ labelOfD d ∉ labelsOfF ds ∧ wfForest ds

end

mutual

/-- Every case of the file `f` has a generation below `b` (deep). -/
def belowT (f : String) (b : Nat) : TTree → Prop
  | TTree.tcase _ loc gen => loc.uri = f → gen < b
  | TTree.tsuite _ _ cc => belowF f b cc

def belowF (f : String) (b : Nat) : List TTree → Prop
  | [] => True
  | c :: cs => belowT f b c ∧ belowF f b cs

end

mutual

/-- Every case of the file `f` has a generation at least `b` (deep). -/
def geT (f : String) (b : Nat) : TTree → Prop
  | TTree.tcase _ loc gen => loc.uri = f → b ≤ gen
  | TTree.tsuite _ _ cc => geF f b cc

def geF (f : String) (b : Nat) : List TTree → Prop
  | [] => True
  | c :: cs => geT f b c ∧ geF f b cs

end

mutual

/-- No empty suites anywhere in the tree. -/
def neT : TTree → Prop
  | TTree.tcase _ _ _ => True
  | TTree.tsuite _ _ cc => cc ≠ [] ∧ neF cc

def neF : List TTree → Prop
  | [] => True
  | c :: cs => neT c ∧ neF cs

end

mutual

/-- Coverage of the tree by a declaration forest: every case of file `f`
whose generation reaches `b` either already carries generation at least `g`
or sits at a position redeclared by `F` (so the next merge of `F` restamps
it); a suite is either redeclared by `F` with covered children, or all its
high-generation file cases are already restamped (the `F = []` instance). -/
def okT (f : String) (b g : Nat) (F : List DeclTree) : TTree → Prop
  | TTree.tcase l loc gen =>
    loc.uri = f → b ≤ gen → (g ≤ gen ∨ (findDeclCase l F).isSome = true)
  | TTree.tsuite l _ cc =>
    (∃ pr, findDeclSuite l F = some pr ∧ okF f b g pr.2 cc) ∨ okF f b g [] cc

def okF (f : String) (b g : Nat) (F : List DeclTree) : List TTree → Prop
  | [] => True
  | c :: cs => okT f b g F c ∧ okF f b g F cs

end

mutual

/-- The tree with all generation stamps erased (for comparing trees up to
the per-pass generation bookkeeping). -/
def eraseGenT : TTree → TTree
  | TTree.tcase l loc _ => TTree.tcase l loc 0
  | TTree.tsuite l loc cc => TTree.tsuite l loc (eraseGenF cc)

def eraseGenF : List TTree → List TTree
  | [] => []
  | c :: cs => eraseGenT c :: eraseGenF cs

end

theorem lookupChild_label (l : String) (cs : List TTree) (c : TTree)
    (h : lookupChild l cs = some c) : c.label = l := by
  induction cs with
  | nil => cases h
  | cons c0 rest ih =>
    simp only [lookupChild] at h
    by_cases h0 : c0.label = l
    · rw [if_pos h0] at h
      injection h with h2
      rw [← h2]
      exact h0
    · rw [if_neg h0] at h
      exact ih h

theorem lookupChild_mem (l : String) (cs : List TTree) (c : TTree)
    (h : lookupChild l cs = some c) : c ∈ cs := by
  induction cs with
  | nil => cases h
  | cons c0 rest ih =>
    simp only [lookupChild] at h
    by_cases h0 : c0.label = l
    · rw [if_pos h0] at h
      injection h with h2
      rw [h2]
      exact List.mem_cons_self _ _
    · rw [if_neg h0] at h
      exact List.mem_cons_of_mem _ (ih h)

theorem lookupChild_none_iff (l : String) (cs : List TTree) :
    lookupChild l cs = none ↔ l ∉ labelsOfT cs := by
  induction cs with
  | nil => simp [lookupChild, labelsOfT]
  | cons c0 rest ih =>
    simp only [lookupChild, labelsOfT, List.map_cons, List.mem_cons]
    by_cases h0 : c0.label = l
    · rw [if_pos h0]
      simp [h0]
    · rw [if_neg h0]
      rw [labelsOfT] at ih
      constructor
      · intro h hmem
        rcases hmem with hmem | hmem
        · exact h0 hmem.symm
        · exact (ih.mp h) hmem
      · intro h
        refine ih.mpr ?_
        intro hmem
        exact h (Or.inr hmem)

theorem lookupChild_append_right (l : String) (cs : List TTree) (v : TTree)
    (h : lookupChild l cs = none) (hv : v.label = l) :
    lookupChild l (cs ++ [v]) = some v := by
  induction cs with
  | nil => simp [lookupChild, hv]
  | cons c0 rest ih =>
    simp only [lookupChild] at h ⊢
    by_cases h0 : c0.label = l
    · rw [if_pos h0] at h
      cases h
    · rw [if_neg h0] at h ⊢
      exact ih h

theorem lookupChild_append_left (l : String) (cs : List TTree) (v : TTree)
    (h : lookupChild l cs = none) (hv : v.label ≠ l) :
    lookupChild l (cs ++ [v]) = none := by
  induction cs with
  | nil => simp [lookupChild, hv]
  | cons c0 rest ih =>
    simp only [lookupChild] at h ⊢
    by_cases h0 : c0.label = l
    · rw [if_pos h0] at h
      cases h
    · rw [if_neg h0] at h ⊢
      exact ih h

theorem setChild_lookup_self (l : String) (v : TTree) (cs : List TTree)
    (hv : v.label = l) : lookupChild l (setChild l v cs) = some v := by
  induction cs with
  | nil => simp [setChild, lookupChild, hv]
  | cons c0 rest ih =>
    simp only [setChild]
    by_cases h0 : c0.label = l
    · rw [if_pos h0]
      simp [lookupChild, hv]
    · rw [if_neg h0]
      simp only [lookupChild, if_neg h0]
      exact ih

theorem setChild_lookup_other (l l2 : String) (v : TTree) (cs : List TTree)
    (hv : v.label = l) (hne : l2 ≠ l) :
    lookupChild l2 (setChild l v cs) = lookupChild l2 cs := by
  induction cs with
  | nil =>
    simp only [setChild, lookupChild, hv]
    rw [if_neg (fun h => hne h.symm)]
  | cons c0 rest ih =>
    simp only [setChild]
    by_cases h0 : c0.label = l
    · rw [if_pos h0]
      simp only [lookupChild]
      rw [if_neg (by rw [hv]; exact fun h => hne h.symm), if_neg (by rw [h0]; exact fun h => hne h.symm)]
    · rw [if_neg h0]
      simp only [lookupChild]
      by_cases h2 : c0.label = l2
      · rw [if_pos h2, if_pos h2]
      · rw [if_neg h2, if_neg h2]
        exact ih

theorem setChild_self (l : String) (v : TTree) (cs : List TTree)
    (h : lookupChild l cs = some v) : setChild l v cs = cs := by
  induction cs with
  | nil => cases h
  | cons c0 rest ih =>
    simp only [lookupChild] at h
    simp only [setChild]
    by_cases h0 : c0.label = l
    · rw [if_pos h0] at h
      rw [if_pos h0]
      injection h with h2
      rw [h2]
    · rw [if_neg h0] at h
      rw [if_neg h0, ih h]

theorem setChild_setChild (l : String) (v1 v2 : TTree) (cs : List TTree)
    (hv1 : v1.label = l) :
    setChild l v2 (setChild l v1 cs) = setChild l v2 cs := by
  induction cs with
  | nil => simp [setChild, hv1]
  | cons c0 rest ih =>
    simp only [setChild]
    by_cases h0 : c0.label = l
    · rw [if_pos h0]
      simp [setChild, hv1, if_pos h0]
    · rw [if_neg h0]
      simp only [setChild, if_neg h0, ih]

theorem mem_labelsOfT (cs : List TTree) (c : TTree) (h : c ∈ cs) :
    c.label ∈ labelsOfT cs :=
  List.mem_map_of_mem TTree.label h

theorem labelsOfT_setChild_sub (l : String) (v : TTree) (cs : List TTree)
    (hv : v.label = l) :
    ∀ x ∈ labelsOfT (setChild l v cs), x ∈ labelsOfT cs ∨ x = l := by
  induction cs with
  | nil =>
    intro x hx
    simp only [setChild, labelsOfT, List.map_cons, List.map_nil,
      List.mem_singleton] at hx
    right
    rw [hx, hv]
  | cons c0 rest ih =>
    intro x hx
    simp only [setChild] at hx
    by_cases h0 : c0.label = l
    · rw [if_pos h0] at hx
      simp only [labelsOfT, List.map_cons, List.mem_cons] at hx ⊢
      rcases hx with rfl | hx
      · right; exact hv
      · left; right; exact hx
    · rw [if_neg h0] at hx
      simp only [labelsOfT, List.map_cons, List.mem_cons] at hx ⊢
      rcases hx with rfl | hx
      · left; left; rfl
      · rcases ih x hx with h | h
        · left; right; exact h
        · right; exact h

theorem mem_setChild (l : String) (v : TTree) (cs : List TTree) :
    ∀ c ∈ setChild l v cs, c = v ∨ c ∈ cs := by
  induction cs with
  | nil =>
    intro c hc
    simp only [setChild, List.mem_singleton] at hc
    exact Or.inl hc
  | cons c0 rest ih =>
    intro c hc
    simp only [setChild] at hc
    by_cases h0 : c0.label = l
    · rw [if_pos h0] at hc
      rcases List.mem_cons.mp hc with rfl | hc2
      · exact Or.inl rfl
      · exact Or.inr (List.mem_cons_of_mem _ hc2)
    · rw [if_neg h0] at hc
      rcases List.mem_cons.mp hc with rfl | hc2
      · exact Or.inr (List.mem_cons_self _ _)
      · rcases ih c hc2 with h | h
        · exact Or.inl h
        · exact Or.inr (List.mem_cons_of_mem _ h)

theorem mem_setChild_strong (l : String) (v : TTree) (cs : List TTree)
    (hu : uniqForest cs) (hv : v.label = l) :
    ∀ c ∈ setChild l v cs, c = v ∨ (c ∈ cs ∧ c.label ≠ l) := by
  induction cs with
  | nil =>
    intro c hc
    simp only [setChild, List.mem_singleton] at hc
    exact Or.inl hc
  | cons c0 rest ih =>
    intro c hc
    simp only [uniqForest] at hu
    simp only [setChild] at hc
    by_cases h0 : c0.label = l
    · rw [if_pos h0] at hc
      rcases List.mem_cons.mp hc with rfl | hc2
      · exact Or.inl rfl
      · refine Or.inr ⟨List.mem_cons_of_mem _ hc2, ?_⟩
        intro hcl
        exact hu.2.1 (by rw [h0, ← hcl]; exact mem_labelsOfT rest c hc2)
    · rw [if_neg h0] at hc
      rcases List.mem_cons.mp hc with rfl | hc2
      · exact Or.inr ⟨List.mem_cons_self _ _, h0⟩
      · rcases ih hu.2.2 c hc2 with h | h
        · exact Or.inl h
        · exact Or.inr ⟨List.mem_cons_of_mem _ h.1, h.2⟩

theorem uniq_setChild (l : String) (v : TTree) (cs : List TTree)
    (hu : uniqForest cs) (hv : uniqTree v) (hvl : v.label = l) :
    uniqForest (setChild l v cs) := by
  induction cs with
  | nil =>
    simp only [setChild, uniqForest, labelsOfT]
    exact ⟨hv, by simp, trivial⟩
  | cons c0 rest ih =>
    simp only [uniqForest] at hu
    simp only [setChild]
    by_cases h0 : c0.label = l
    · rw [if_pos h0]
      exact ⟨hv, by rw [hvl, ← h0]; exact hu.2.1, hu.2.2⟩
    · rw [if_neg h0]
      refine ⟨hu.1, ?_, ih hu.2.2⟩
      intro hmem
      rcases labelsOfT_setChild_sub l v rest hvl _ hmem with h | h
      · exact hu.2.1 h
      · exact h0 h

theorem uniq_of_mem (cs : List TTree) (c : TTree) (hu : uniqForest cs)
    (hc : c ∈ cs) : uniqTree c := by
  induction cs with
  | nil => cases hc
  | cons c0 rest ih =>
    simp only [uniqForest] at hu
    rcases List.mem_cons.mp hc with rfl | hc2
    · exact hu.1
    · exact ih hu.2.2 hc2

theorem lookup_of_mem (cs : List TTree) (c : TTree) (hu : uniqForest cs)
    (hc : c ∈ cs) : lookupChild c.label cs = some c := by
  induction cs with
  | nil => cases hc
  | cons c0 rest ih =>
    simp only [uniqForest] at hu
    simp only [lookupChild]
    rcases List.mem_cons.mp hc with rfl | hc2
    · rw [if_pos rfl]
    · rw [if_neg ?_]
      · exact ih hu.2.2 hc2
      · intro h0
        exact hu.2.1 (by rw [h0]; exact mem_labelsOfT rest c hc2)

theorem uniq_lookup_suite (l : String) (cs cc : List TTree) (loc : Loc)
    (hu : uniqForest cs) (h : lookupChild l cs = some (TTree.tsuite l loc cc)) :
    uniqForest cc :=
  uniq_of_mem cs _ hu (lookupChild_mem l cs _ h)

/-- `addChild` with a case candidate always returns that case (possibly as
the merged update of the existing entry). -/
theorem addChild_case_node (cs : List TTree) (l : String) (loc : Loc) (g : Nat) :
    (addChild cs (TTree.tcase l loc g)).node = TTree.tcase l loc g := by
  simp only [addChild, TTree.label]
  cases hl : lookupChild l cs with
  | none => rfl
  | some ex =>
    have := lookupChild_label l cs ex hl
    cases ex with
    | tcase l2 loc2 g2 =>
      simp only [TTree.label] at this
      rw [this]
    | tsuite l2 loc2 cc2 => rfl

/-- `addChild` with a suite candidate always returns a suite with the
candidate's label and location (keeping the existing children on a merge). -/
theorem addChild_suite_node (cs : List TTree) (l : String) (loc : Loc)
    (cc : List TTree) :
    ∃ cc2, (addChild cs (TTree.tsuite l loc cc)).node = TTree.tsuite l loc cc2 := by
  simp only [addChild, TTree.label]
  cases hl : lookupChild l cs with
  | none => exact ⟨cc, rfl⟩
  | some ex =>
    have hlbl := lookupChild_label l cs ex hl
    cases ex with
    | tcase l2 loc2 g2 => exact ⟨cc, rfl⟩
    | tsuite l2 loc2 cc2 =>
      simp only [TTree.label] at hlbl
      subst l2
      exact ⟨cc2, rfl⟩

theorem mergeForest_append (g : Nat) (p : TPath) (F1 F2 : List DeclTree)
    (st : List TTree × List TPath) :
    mergeForest g p (F1 ++ F2) st = mergeForest g p F2 (mergeForest g p F1 st) := by
  induction F1 generalizing st with
  | nil => simp [mergeForest]
  | cons d ds ih =>
    simp only [List.cons_append, mergeForest]
    exact ih (mergeDecl g p d st)

/-- The source traversal factors through the declaration forest: running the
`traverse` closure over a syntax node is the same as merging the node's
declarations into the tree. -/
theorem traverse_eq_merge_node (g : Nat) (file : String) (lc : Nat → Pos) :
    ∀ (path : TPath) (n : TsNode) (st : List TTree × List TPath),
      traverseNode g file lc path n st =
        mergeForest g path (forestOfNode file lc n) st := by
  refine traverseNode.induct g file lc
    (fun path n st => traverseNode g file lc path n st =
      mergeForest g path (forestOfNode file lc n) st)
    (fun path ns st => traverseListTs g file lc path ns st =
      mergeForest g path (forestOfList file lc ns) st)
    ?_ ?_ ?_ ?_ ?_ ?_ ?_ ?_ ?_
  · intro path st text
    simp [traverseNode, forestOfNode, mergeForest]
  · intro path st text pos stop
    simp [traverseNode, forestOfNode, mergeForest]
  · intro path st pos stop body ih
    simp only [traverseNode, forestOfNode]
    exact ih
  · intro path st cs ih
    simp only [traverseNode, forestOfNode]
    exact ih
  · intro path st callee args h ih1 ih2
    simp only [traverseNode, forestOfNode, h]
    rw [mergeForest_append, ← ih1]
    exact ih2
  · intro path st callee args e h r l location generation hnode
    obtain ⟨ek, en, er⟩ := e
    have hnode2 : (addChild st.1 (candOf ⟨ek, en, er⟩ g file)).node =
        TTree.tcase l location generation := hnode
    cases ek with
    | ksuite =>
      obtain ⟨cc2, h2⟩ := addChild_suite_node st.1 en ⟨file, er⟩ []
      have : candOf ⟨ExtractedKind.ksuite, en, er⟩ g file =
          TTree.tsuite en ⟨file, er⟩ [] := rfl
      rw [this] at hnode2
      rw [hnode2] at h2
      cases h2
    | kcase =>
      simp only [candOf] at hnode2
      simp only [traverseNode, h, forestOfNode, mergeForest, mergeDecl, candOf]
      rw [hnode2]
  · intro path st callee args e h r acc2 l location children hnode ih1 ih2
    obtain ⟨ek, en, er⟩ := e
    have hnode2 : (addChild st.1 (candOf ⟨ek, en, er⟩ g file)).node =
        TTree.tsuite l location children := hnode
    cases ek with
    | kcase =>
      have h2 := addChild_case_node st.1 (if en = "" then "<empty>" else en)
        ⟨file, er⟩ g
      have : candOf ⟨ExtractedKind.kcase, en, er⟩ g file =
          TTree.tcase (if en = "" then "<empty>" else en) ⟨file, er⟩ g := rfl
      rw [this] at hnode2
      rw [hnode2] at h2
      cases h2
    | ksuite =>
      simp only [candOf] at hnode2
      unfold acc2 r at ih1 ih2
      simp only [candOf] at ih1 ih2
      have hsub : traverseListTs g file lc (path ++ [l]) args
            (traverseNode g file lc (path ++ [l]) callee (children,
              accAfterAdd (addChild st.1 (TTree.tsuite en ⟨file, er⟩ [])) path st.2)) =
          mergeForest g (path ++ [l])
            (forestOfNode file lc callee ++ forestOfList file lc args)
            (children,
              accAfterAdd (addChild st.1 (TTree.tsuite en ⟨file, er⟩ [])) path st.2) := by
        rw [mergeForest_append, ← ih1]
        exact ih2
      simp only [traverseNode, h, forestOfNode, mergeForest, mergeDecl, candOf, hnode2]
      rw [hsub]
  · intro path st
    simp [traverseListTs, forestOfList, mergeForest]
  · intro path st n rest ih1 ih2
    simp only [traverseListTs, forestOfList]
    rw [mergeForest_append, ← ih1]
    exact ih2

/-- List version of `traverse_eq_merge_node`. -/
theorem traverse_eq_merge_list (g : Nat) (file : String) (lc : Nat → Pos) :
    ∀ (ns : List TsNode) (path : TPath) (st : List TTree × List TPath),
      traverseListTs g file lc path ns st =
        mergeForest g path (forestOfList file lc ns) st := by
  intro ns
  induction ns with
  | nil =>
    intro path st
    simp [traverseListTs, forestOfList, mergeForest]
  | cons n rest ih =>
    intro path st
    simp only [traverseListTs, forestOfList]
    rw [mergeForest_append, ← traverse_eq_merge_node g file lc path n st]
    exact ih path (traverseNode g file lc path n st)

theorem okF_iff_forall (f : String) (b g : Nat) (F : List DeclTree)
    (cs : List TTree) : okF f b g F cs ↔ ∀ c ∈ cs, okT f b g F c := by
  induction cs with
  | nil => simp [okF]
  | cons c0 rest ih =>
    simp only [okF, List.mem_cons, ih]
    constructor
    · rintro ⟨h1, h2⟩ c (rfl | hc)
      · exact h1
      · exact h2 c hc
    · intro h
      exact ⟨h c0 (Or.inl rfl), fun c hc => h c (Or.inr hc)⟩

theorem geF_iff_forall (f : String) (b : Nat) (cs : List TTree) :
    geF f b cs ↔ ∀ c ∈ cs, geT f b c := by
  induction cs with
  | nil => simp [geF]
  | cons c0 rest ih =>
    simp only [geF, List.mem_cons, ih]
    constructor
    · rintro ⟨h1, h2⟩ c (rfl | hc)
      · exact h1
      · exact h2 c hc
    · intro h
      exact ⟨h c0 (Or.inl rfl), fun c hc => h c (Or.inr hc)⟩

theorem neF_iff_forall (cs : List TTree) : neF cs ↔ ∀ c ∈ cs, neT c := by
  induction cs with
  | nil => simp [neF]
  | cons c0 rest ih =>
    simp only [neF, List.mem_cons, ih]
    constructor
    · rintro ⟨h1, h2⟩ c (rfl | hc)
      · exact h1
      · exact h2 c hc
    · intro h
      exact ⟨h c0 (Or.inl rfl), fun c hc => h c (Or.inr hc)⟩

theorem belowF_iff_forall (f : String) (b : Nat) (cs : List TTree) :
    belowF f b cs ↔ ∀ c ∈ cs, belowT f b c := by
  induction cs with
  | nil => simp [belowF]
  | cons c0 rest ih =>
    simp only [belowF, List.mem_cons, ih]
    constructor
    · rintro ⟨h1, h2⟩ c (rfl | hc)
      · exact h1
      · exact h2 c hc
    · intro h
      exact ⟨h c0 (Or.inl rfl), fun c hc => h c (Or.inr hc)⟩

theorem realizesForest_iff_forall (g : Nat) (cs : List TTree)
    (F : List DeclTree) :
    realizesForest g cs F ↔ ∀ d ∈ F, realizesDecl g cs d := by
  induction F with
  | nil => simp [realizesForest]
  | cons d0 rest ih =>
    simp only [realizesForest, List.mem_cons, ih]
    constructor
    · rintro ⟨h1, h2⟩ d (rfl | hd)
      · exact h1
      · exact h2 d hd
    · intro h
      exact ⟨h d0 (Or.inl rfl), fun d hd => h d (Or.inr hd)⟩

theorem realizesDecl_congr (g : Nat) (cs1 cs2 : List TTree) (d : DeclTree)
    (h : lookupChild (labelOfD d) cs1 = lookupChild (labelOfD d) cs2)
    (hr : realizesDecl g cs1 d) : realizesDecl g cs2 d := by
  cases d with
  | dcase l loc =>
    simp only [realizesDecl, labelOfD] at hr h ⊢
    rw [← h]
    exact hr
  | dsuite l loc ds =>
    simp only [realizesDecl, labelOfD] at hr h ⊢
    obtain ⟨cc, hlk, hrf⟩ := hr
    exact ⟨cc, h ▸ hlk, hrf⟩

mutual

theorem okT_mono_nil (f : String) (b g : Nat) (F : List DeclTree) (c : TTree)
    (h : okT f b g [] c) : okT f b g F c := by
  cases c with
  | tcase l loc gen =>
    simp only [okT] at h ⊢
    intro h1 h2
    rcases h h1 h2 with h3 | h3
    · exact Or.inl h3
    · simp [findDeclCase] at h3
  | tsuite l loc cc =>
    simp only [okT] at h ⊢
    rcases h with ⟨pr, hpr, _⟩ | h
    · simp [findDeclSuite] at hpr
    · exact Or.inr h

theorem okF_mono_nil (f : String) (b g : Nat) (F : List DeclTree)
    (cs : List TTree) (h : okF f b g [] cs) : okF f b g F cs := by
  cases cs with
  | nil => trivial
  | cons c0 rest =>
    simp only [okF] at h ⊢
    exact ⟨okT_mono_nil f b g F c0 h.1, okF_mono_nil f b g F rest h.2⟩

end

theorem findDeclCase_cons_skip (l : String) (d : DeclTree) (ds : List DeclTree)
    (h : l ≠ labelOfD d) : findDeclCase l (d :: ds) = findDeclCase l ds := by
  cases d with
  | dcase l2 loc =>
    simp only [findDeclCase, labelOfD] at h ⊢
    rw [if_neg (fun h2 => h h2.symm)]
  | dsuite l2 loc cc => simp [findDeclCase]

theorem findDeclSuite_cons_skip (l : String) (d : DeclTree) (ds : List DeclTree)
    (h : l ≠ labelOfD d) : findDeclSuite l (d :: ds) = findDeclSuite l ds := by
  cases d with
  | dcase l2 loc => simp [findDeclSuite]
  | dsuite l2 loc cc =>
    simp only [findDeclSuite, labelOfD] at h ⊢
    rw [if_neg (fun h2 => h h2.symm)]

theorem okT_step_down (f : String) (b g : Nat) (d : DeclTree)
    (ds : List DeclTree) (c : TTree) (hl : c.label ≠ labelOfD d)
    (h : okT f b g (d :: ds) c) : okT f b g ds c := by
  cases c with
  | tcase l loc gen =>
    simp only [okT, TTree.label] at h hl ⊢
    intro h1 h2
    rcases h h1 h2 with h3 | h3
    · exact Or.inl h3
    · rw [findDeclCase_cons_skip l d ds hl] at h3
      exact Or.inr h3
  | tsuite l loc cc =>
    simp only [okT, TTree.label] at h hl ⊢
    rcases h with ⟨pr, hpr, hok⟩ | h
    · rw [findDeclSuite_cons_skip l d ds hl] at hpr
      exact Or.inl ⟨pr, hpr, hok⟩
    · exact Or.inr h

mutual

theorem okT_of_below (f : String) (b g : Nat) (F : List DeclTree) (c : TTree)
    (h : belowT f b c) : okT f b g F c := by
  cases c with
  | tcase l loc gen =>
    simp only [belowT] at h
    simp only [okT]
    intro h1 h2
    exact absurd (h h1) (by omega)
  | tsuite l loc cc =>
    simp only [belowT] at h
    simp only [okT]
    exact Or.inr (okF_of_below f b g [] cc h)

theorem okF_of_below (f : String) (b g : Nat) (F : List DeclTree)
    (cs : List TTree) (h : belowF f b cs) : okF f b g F cs := by
  cases cs with
  | nil => trivial
  | cons c0 rest =>
    simp only [belowF] at h
    simp only [okF]
    exact ⟨okT_of_below f b g F c0 h.1, okF_of_below f b g F rest h.2⟩

end

/-- The compatibility of one declaration with a forest used as a coverage
reference: its label is found in the forest with the same nesting. -/
def dCompat (F0 : List DeclTree) : DeclTree → Prop
  | DeclTree.dcase l _ => (findDeclCase l F0).isSome = true
  | DeclTree.dsuite l _ ds => ∃ loc2, findDeclSuite l F0 = some (loc2, ds)

theorem findDeclCase_cons_mono (l : String) (d : DeclTree)
    (ds : List DeclTree) (h : (findDeclCase l ds).isSome = true) :
    (findDeclCase l (d :: ds)).isSome = true := by
  cases d with
  | dcase l2 loc =>
    simp only [findDeclCase]
    by_cases h2 : l2 = l
    · rw [if_pos h2]; rfl
    · rw [if_neg h2]; exact h
  | dsuite l2 loc cc => simpa [findDeclCase] using h

theorem selfCompat_of_wf (F : List DeclTree) (hwf : wfForest F) :
    ∀ d ∈ F, dCompat F d := by
  induction F with
  | nil => intro d hd; cases hd
  | cons d0 rest ih =>
    simp only [wfForest] at hwf
    intro d hd
    rcases List.mem_cons.mp hd with rfl | hd2
    · cases d with
      | dcase l loc =>
        simp [dCompat, findDeclCase]
      | dsuite l loc cc =>
        simp [dCompat, findDeclSuite]
    · have hc := ih hwf.2.2 d hd2
      have hlbl : labelOfD d ≠ labelOfD d0 := by
        intro h
        apply hwf.2.1
        rw [h.symm]
        exact List.mem_map_of_mem labelOfD hd2
      cases d with
      | dcase l loc =>
        simp only [dCompat] at hc ⊢
        exact findDeclCase_cons_mono l d0 rest hc
      | dsuite l loc cc =>
        simp only [dCompat] at hc ⊢
        obtain ⟨loc2, h2⟩ := hc
        refine ⟨loc2, ?_⟩
        rw [findDeclSuite_cons_skip l d0 rest ?_]
        · exact h2
        · simpa [labelOfD] using hlbl

theorem realizesForest_ne_nil (g : Nat) (cs : List TTree) (d0 : DeclTree)
    (ds : List DeclTree) (h : realizesForest g cs (d0 :: ds)) : cs ≠ [] := by
  intro hnil
  subst hnil
  simp only [realizesForest] at h
  cases d0 with
  | dcase l loc =>
    simp only [realizesDecl, lookupChild] at h
    cases h.1
  | dsuite l loc cc =>
    simp only [realizesDecl, lookupChild] at h
    obtain ⟨cc2, h2, _⟩ := h.1
    cases h2

theorem eraseGenF_setChild (l : String) (v w : TTree) (cs : List TTree)
    (hlk : lookupChild l cs = some w) (hew : eraseGenT v = eraseGenT w) :
    eraseGenF (setChild l v cs) = eraseGenF cs := by
  induction cs with
  | nil => cases hlk
  | cons c0 rest ih =>
    simp only [lookupChild] at hlk
    simp only [setChild]
    by_cases h0 : c0.label = l
    · rw [if_pos h0] at hlk ⊢
      injection hlk with h2
      subst h2
      simp only [eraseGenF, hew]
    · rw [if_neg h0] at hlk ⊢
      simp only [eraseGenF, ih hlk]

theorem uniq_append_one (cs : List TTree) (v : TTree) (hu : uniqForest cs)
    (hv : uniqTree v) (hnl : v.label ∉ labelsOfT cs) :
    uniqForest (cs ++ [v]) := by
  induction cs with
  | nil => exact ⟨hv, by simp [labelsOfT], trivial⟩
  | cons c0 rest ih =>
    simp only [uniqForest] at hu
    simp only [labelsOfT, List.map_cons, List.mem_cons] at hnl
    refine ⟨hu.1, ?_, ih hu.2.2 (fun h => hnl (Or.inr h))⟩
    intro hmem
    have hsplit : c0.label ∈ labelsOfT rest ∨ c0.label = v.label := by
      have hmem2 : c0.label ∈ labelsOfT rest ++ labelsOfT [v] := by
        simpa [labelsOfT] using hmem
      rcases List.mem_append.mp hmem2 with h | h
      · exact Or.inl h
      · simp only [labelsOfT, List.map_cons, List.map_nil,
          List.mem_singleton] at h
        exact Or.inr h
    rcases hsplit with h | h
    · exact hu.2.1 h
    · exact hnl (Or.inl h.symm)

theorem lookup_append_other (l : String) (cs : List TTree) (v : TTree)
    (hv : v.label ≠ l) : lookupChild l (cs ++ [v]) = lookupChild l cs := by
  induction cs with
  | nil => simp [lookupChild, hv]
  | cons c0 rest ih =>
    simp only [List.cons_append, lookupChild]
    by_cases h0 : c0.label = l
    · rw [if_pos h0, if_pos h0]
    · rw [if_neg h0, if_neg h0]
      exact ih

theorem setChild_append (l : String) (v1 v2 : TTree) (cs : List TTree)
    (hlk : lookupChild l cs = none) (hv1 : v1.label = l) :
    setChild l v2 (cs ++ [v1]) = cs ++ [v2] := by
  induction cs with
  | nil => simp [setChild, hv1]
  | cons c0 rest ih =>
    simp only [lookupChild] at hlk
    by_cases h0 : c0.label = l
    · rw [if_pos h0] at hlk
      cases hlk
    · rw [if_neg h0] at hlk
      simp only [List.cons_append, setChild, if_neg h0]
      rw [show rest.append [v1] = rest ++ [v1] from rfl, ih hlk]

/-- The invariant bundle established by merging one declaration: realization,
uniqueness, a frame property on other labels, restamping of covered entries,
stability (no change reported when the tree already realizes the
declaration), preservation of generation lower bounds, of the absence of
empty suites, and of coverage. -/
def MergeDeclOk (g : Nat) (path : TPath) (d : DeclTree)
    (st : List TTree × List TPath) : Prop :=
  wfDecl d → uniqForest st.1 →
  realizesDecl g (mergeDecl g path d st).1 d ∧
  uniqForest (mergeDecl g path d st).1 ∧
  (∀ l, l ≠ labelOfD d →
    lookupChild l (mergeDecl g path d st).1 = lookupChild l st.1) ∧
  (∀ f b ds2, okF f b g (d :: ds2) st.1 →
    okF f b g ds2 (mergeDecl g path d st).1) ∧
  (∀ g0, realizesDecl g0 st.1 d →
    (mergeDecl g path d st).2 = st.2 ∧
    eraseGenF (mergeDecl g path d st).1 = eraseGenF st.1) ∧
  (∀ f b, geF f b st.1 → b ≤ g → geF f b (mergeDecl g path d st).1) ∧
  (neF st.1 → neF (mergeDecl g path d st).1) ∧
  (∀ f b g2 F0, okF f b g2 F0 st.1 → dCompat F0 d → b ≤ g →
    okF f b g2 F0 (mergeDecl g path d st).1)

/-- Forest version of `MergeDeclOk`. -/
def MergeForestOk (g : Nat) (path : TPath) (F : List DeclTree)
    (st : List TTree × List TPath) : Prop :=
  wfForest F → uniqForest st.1 →
  realizesForest g (mergeForest g path F st).1 F ∧
  uniqForest (mergeForest g path F st).1 ∧
  (∀ l, l ∉ labelsOfF F →
    lookupChild l (mergeForest g path F st).1 = lookupChild l st.1) ∧
  (∀ f b, okF f b g F st.1 → okF f b g [] (mergeForest g path F st).1) ∧
  (∀ g0, realizesForest g0 st.1 F →
    (mergeForest g path F st).2 = st.2 ∧
    eraseGenF (mergeForest g path F st).1 = eraseGenF st.1) ∧
  (∀ f b, geF f b st.1 → b ≤ g → geF f b (mergeForest g path F st).1) ∧
  (neF st.1 → neF (mergeForest g path F st).1) ∧
  (∀ f b g2 F0, okF f b g2 F0 st.1 → (∀ d2 ∈ F, dCompat F0 d2) → b ≤ g →
    okF f b g2 F0 (mergeForest g path F st).1)

theorem mergeDecl_ok_dcase (g : Nat) (path : TPath)
    (st : List TTree × List TPath) (l : String) (loc : Loc) :
    MergeDeclOk g path (DeclTree.dcase l loc) st := by
  intro _ hu
  cases hlk : lookupChild l st.1 with
  | none =>
    have hadd : addChild st.1 (TTree.tcase l loc g) =
        ⟨st.1 ++ [TTree.tcase l loc g], TTree.tcase l loc g, false, true⟩ := by
      simp only [addChild, TTree.label]
      rw [hlk]
    have hres1 : (mergeDecl g path (DeclTree.dcase l loc) st).1 =
        st.1 ++ [TTree.tcase l loc g] := by
      simp only [mergeDecl, hadd]
    have hnotin : l ∉ labelsOfT st.1 := (lookupChild_none_iff l st.1).mp hlk
    have hmem : ∀ c ∈ (mergeDecl g path (DeclTree.dcase l loc) st).1,
        c = TTree.tcase l loc g ∨ (c ∈ st.1 ∧ c.label ≠ l) := by
      intro c hc
      rw [hres1] at hc
      rcases List.mem_append.mp hc with h | h
      · refine Or.inr ⟨h, ?_⟩
        intro h2
        exact hnotin (h2 ▸ mem_labelsOfT st.1 c h)
      · simp only [List.mem_singleton] at h
        exact Or.inl h
    refine ⟨?_, ?_, ?_, ?_, ?_, ?_, ?_, ?_⟩
    · simp only [realizesDecl]
      rw [hres1]
      exact lookupChild_append_right l st.1 _ hlk rfl
    · rw [hres1]
      exact uniq_append_one st.1 _ hu trivial hnotin
    · intro l2 hne
      simp only [labelOfD] at hne
      rw [hres1]
      exact lookup_append_other l2 st.1 _ (by simpa [TTree.label] using hne ∘ Eq.symm)
    · intro f b ds2 hok
      rw [okF_iff_forall]
      intro c hc
      rcases hmem c hc with rfl | ⟨hcs, hlbl⟩
      · simp only [okT]
        intro _ _
        exact Or.inl (le_refl g)
      · exact okT_step_down f b g _ ds2 c (by simpa [labelOfD] using hlbl)
          ((okF_iff_forall f b g _ st.1).mp hok c hcs)
    · intro g0 hr
      simp only [realizesDecl] at hr
      rw [hlk] at hr
      cases hr
    · intro f b hge hb
      rw [geF_iff_forall]
      intro c hc
      rcases hmem c hc with rfl | ⟨hcs, _⟩
      · simp only [geT]
        intro _
        exact hb
      · exact (geF_iff_forall f b st.1).mp hge c hcs
    · intro hne
      rw [neF_iff_forall]
      intro c hc
      rcases hmem c hc with rfl | ⟨hcs, _⟩
      · trivial
      · exact (neF_iff_forall st.1).mp hne c hcs
    · intro f b g2 F0 hok hcompat hb
      rw [okF_iff_forall]
      intro c hc
      rcases hmem c hc with rfl | ⟨hcs, _⟩
      · simp only [okT]
        intro _ _
        exact Or.inr (by simpa [dCompat] using hcompat)
      · exact (okF_iff_forall f b g2 F0 st.1).mp hok c hcs
  | some ex =>
    have hlbl := lookupChild_label l st.1 ex hlk
    cases ex with
    | tcase l2 loc2 g2 =>
      simp only [TTree.label] at hlbl
      subst l2
      have hadd : addChild st.1 (TTree.tcase l loc g) =
          ⟨setChild l (TTree.tcase l loc g) st.1, TTree.tcase l loc g,
            !locationEquals loc loc2, false⟩ := by
        simp only [addChild, TTree.label]
        rw [hlk]
      have hres1 : (mergeDecl g path (DeclTree.dcase l loc) st).1 =
          setChild l (TTree.tcase l loc g) st.1 := by
        simp only [mergeDecl, hadd]
      have hmem : ∀ c ∈ (mergeDecl g path (DeclTree.dcase l loc) st).1,
          c = TTree.tcase l loc g ∨ (c ∈ st.1 ∧ c.label ≠ l) := by
        intro c hc
        rw [hres1] at hc
        exact mem_setChild_strong l (TTree.tcase l loc g) st.1 hu rfl c hc
      refine ⟨?_, ?_, ?_, ?_, ?_, ?_, ?_, ?_⟩
      · simp only [realizesDecl]
        rw [hres1]
        exact setChild_lookup_self l _ st.1 rfl
      · rw [hres1]
        exact uniq_setChild l _ st.1 hu trivial rfl
      · intro l2 hne
        simp only [labelOfD] at hne
        rw [hres1]
        refine setChild_lookup_other l l2 _ st.1 ?_ hne
        rfl
      · intro f b ds2 hok
        rw [okF_iff_forall]
        intro c hc
        rcases hmem c hc with rfl | ⟨hcs, hlbl2⟩
        · simp only [okT]
          intro _ _
          exact Or.inl (le_refl g)
        · exact okT_step_down f b g _ ds2 c (by simpa [labelOfD] using hlbl2)
            ((okF_iff_forall f b g _ st.1).mp hok c hcs)
      · intro g0 hr
        simp only [realizesDecl] at hr
        rw [hlk] at hr
        injection hr with hr2
        injection hr2 with hr3 hr4 hr5
        have hle : locationEquals loc loc2 = true :=
          (locationEquals_iff loc loc2).mpr hr4.symm
        constructor
        · simp [mergeDecl, hadd, accAfterAdd, hle]
        · rw [hres1]
          refine eraseGenF_setChild l _ _ st.1 hlk ?_
          simp [eraseGenT, hr4]
      · intro f b hge hb
        rw [geF_iff_forall]
        intro c hc
        rcases hmem c hc with rfl | ⟨hcs, _⟩
        · simp only [geT]
          intro _
          exact hb
        · exact (geF_iff_forall f b st.1).mp hge c hcs
      · intro hne
        rw [neF_iff_forall]
        intro c hc
        rcases hmem c hc with rfl | ⟨hcs, _⟩
        · trivial
        · exact (neF_iff_forall st.1).mp hne c hcs
      · intro f b g2 F0 hok hcompat hb
        rw [okF_iff_forall]
        intro c hc
        rcases hmem c hc with rfl | ⟨hcs, _⟩
        · simp only [okT]
          intro _ _
          exact Or.inr (by simpa [dCompat] using hcompat)
        · exact (okF_iff_forall f b g2 F0 st.1).mp hok c hcs
    | tsuite l2 loc2 cc2 =>
      simp only [TTree.label] at hlbl
      subst l2
      have hadd : addChild st.1 (TTree.tcase l loc g) =
          ⟨setChild l (TTree.tcase l loc g) st.1, TTree.tcase l loc g,
            false, true⟩ := by
        simp only [addChild, TTree.label]
        rw [hlk]
      have hres1 : (mergeDecl g path (DeclTree.dcase l loc) st).1 =
          setChild l (TTree.tcase l loc g) st.1 := by
        simp only [mergeDecl, hadd]
      have hmem : ∀ c ∈ (mergeDecl g path (DeclTree.dcase l loc) st).1,
          c = TTree.tcase l loc g ∨ (c ∈ st.1 ∧ c.label ≠ l) := by
        intro c hc
        rw [hres1] at hc
        exact mem_setChild_strong l (TTree.tcase l loc g) st.1 hu rfl c hc
      refine ⟨?_, ?_, ?_, ?_, ?_, ?_, ?_, ?_⟩
      · simp only [realizesDecl]
        rw [hres1]
        exact setChild_lookup_self l _ st.1 rfl
      · rw [hres1]
        exact uniq_setChild l _ st.1 hu trivial rfl
      · intro l2 hne
        simp only [labelOfD] at hne
        rw [hres1]
        refine setChild_lookup_other l l2 _ st.1 ?_ hne
        rfl
      · intro f b ds2 hok
        rw [okF_iff_forall]
        intro c hc
        rcases hmem c hc with rfl | ⟨hcs, hlbl2⟩
        · simp only [okT]
          intro _ _
          exact Or.inl (le_refl g)
        · exact okT_step_down f b g _ ds2 c (by simpa [labelOfD] using hlbl2)
            ((okF_iff_forall f b g _ st.1).mp hok c hcs)
      · intro g0 hr
        simp only [realizesDecl] at hr
        rw [hlk] at hr
        cases hr
      · intro f b hge hb
        rw [geF_iff_forall]
        intro c hc
        rcases hmem c hc with rfl | ⟨hcs, _⟩
        · simp only [geT]
          intro _
          exact hb
        · exact (geF_iff_forall f b st.1).mp hge c hcs
      · intro hne
        rw [neF_iff_forall]
        intro c hc
        rcases hmem c hc with rfl | ⟨hcs, _⟩
        · trivial
        · exact (neF_iff_forall st.1).mp hne c hcs
      · intro f b g2 F0 hok hcompat hb
        rw [okF_iff_forall]
        intro c hc
        rcases hmem c hc with rfl | ⟨hcs, _⟩
        · simp only [okT]
          intro _ _
          exact Or.inr (by simpa [dCompat] using hcompat)
        · exact (okF_iff_forall f b g2 F0 st.1).mp hok c hcs

theorem mergeDecl_ok_dsuite (g : Nat) (path : TPath)
    (st : List TTree × List TPath) (l : String) (loc : Loc)
    (ds : List DeclTree) (l1 : String) (loc1 : Loc) (cc1 : List TTree)
    (hnode : (addChild st.1 (TTree.tsuite l loc [])).node =
      TTree.tsuite l1 loc1 cc1)
    (ih : MergeForestOk g (path ++ [l1]) ds
      (cc1, accAfterAdd (addChild st.1 (TTree.tsuite l loc [])) path st.2)) :
    MergeDeclOk g path (DeclTree.dsuite l loc ds) st := by
  obtain ⟨cc0, h0⟩ := addChild_suite_node st.1 l loc []
  rw [h0] at hnode
  injection hnode with he1 he2 he3
  subst he1
  subst he2
  subst he3
  intro hwf hu
  simp only [wfDecl] at hwf
  have hmd : mergeDecl g path (DeclTree.dsuite l loc ds) st =
      (setChild l (TTree.tsuite l loc
          (mergeForest g (path ++ [l]) ds
            (cc0, accAfterAdd (addChild st.1 (TTree.tsuite l loc [])) path st.2)).1)
        (addChild st.1 (TTree.tsuite l loc [])).children,
       (mergeForest g (path ++ [l]) ds
         (cc0, accAfterAdd (addChild st.1 (TTree.tsuite l loc [])) path st.2)).2) := by
    simp only [mergeDecl, h0]
  cases hlk : lookupChild l st.1 with
  | none =>
    have hadd : addChild st.1 (TTree.tsuite l loc []) =
        ⟨st.1 ++ [TTree.tsuite l loc []], TTree.tsuite l loc [], false, true⟩ := by
      simp only [addChild, TTree.label]
      rw [hlk]
    have hcc0 : cc0 = [] := by
      rw [hadd] at h0
      injection h0 with h1 h2 h3
      exact h3.symm
    subst hcc0
    have hacc : accAfterAdd (addChild st.1 (TTree.tsuite l loc [])) path st.2 =
        setAddP st.2 path := by
      rw [hadd]
      rfl
    have ihu := ih hwf.2 trivial
    obtain ⟨iA, iB, iC, iD, iE, iF, iG, iH⟩ := ihu
    have hsubne : (mergeForest g (path ++ [l]) ds
        ([], accAfterAdd (addChild st.1 (TTree.tsuite l loc [])) path st.2)).1 ≠ [] := by
      cases hds : ds with
      | nil =>
        rw [hds] at hwf
        simp [hasCaseForest] at hwf
      | cons d0 ds2 =>
        rw [hds] at iA
        exact realizesForest_ne_nil g _ d0 ds2 iA
    have hres1 : (mergeDecl g path (DeclTree.dsuite l loc ds) st).1 =
        st.1 ++ [TTree.tsuite l loc
          (mergeForest g (path ++ [l]) ds
            ([], accAfterAdd (addChild st.1 (TTree.tsuite l loc [])) path st.2)).1] := by
      rw [hmd]
      simp only [hadd]
      exact setChild_append l _ _ st.1 hlk rfl
    have hnotin : l ∉ labelsOfT st.1 := (lookupChild_none_iff l st.1).mp hlk
    have hmem : ∀ c ∈ (mergeDecl g path (DeclTree.dsuite l loc ds) st).1,
        c = TTree.tsuite l loc
          (mergeForest g (path ++ [l]) ds
            ([], accAfterAdd (addChild st.1 (TTree.tsuite l loc [])) path st.2)).1 ∨
        (c ∈ st.1 ∧ c.label ≠ l) := by
      intro c hc
      rw [hres1] at hc
      rcases List.mem_append.mp hc with h | h
      · refine Or.inr ⟨h, ?_⟩
        intro h2
        exact hnotin (h2 ▸ mem_labelsOfT st.1 c h)
      · simp only [List.mem_singleton] at h
        exact Or.inl h
    refine ⟨?_, ?_, ?_, ?_, ?_, ?_, ?_, ?_⟩
    · refine ⟨_, ?_, iA⟩
      rw [hres1]
      exact lookupChild_append_right l st.1 _ hlk rfl
    · rw [hres1]
      exact uniq_append_one st.1 _ hu iB hnotin
    · intro l2 hne
      simp only [labelOfD] at hne
      rw [hres1]
      exact lookup_append_other l2 st.1 _ (by simpa [TTree.label] using hne ∘ Eq.symm)
    · intro f b ds2 hok
      rw [okF_iff_forall]
      intro c hc
      rcases hmem c hc with rfl | ⟨hcs, hlbl2⟩
      · simp only [okT]
        exact Or.inr (iD f b trivial)
      · exact okT_step_down f b g _ ds2 c (by simpa [labelOfD] using hlbl2)
          ((okF_iff_forall f b g _ st.1).mp hok c hcs)
    · intro g0 hr
      simp only [realizesDecl] at hr
      obtain ⟨cc2, hlk2, _⟩ := hr
      rw [hlk] at hlk2
      cases hlk2
    · intro f b hge hb
      rw [geF_iff_forall]
      intro c hc
      rcases hmem c hc with rfl | ⟨hcs, _⟩
      · simp only [geT]
        exact iF f b trivial hb
      · exact (geF_iff_forall f b st.1).mp hge c hcs
    · intro hne
      rw [neF_iff_forall]
      intro c hc
      rcases hmem c hc with rfl | ⟨hcs, _⟩
      · exact ⟨hsubne, iG trivial⟩
      · exact (neF_iff_forall st.1).mp hne c hcs
    · intro f b g2 F0 hok hcompat hb
      simp only [dCompat] at hcompat
      obtain ⟨loc2c, hfind⟩ := hcompat
      rw [okF_iff_forall]
      intro c hc
      rcases hmem c hc with rfl | ⟨hcs, _⟩
      · simp only [okT]
        exact Or.inl ⟨(loc2c, ds), hfind,
          iH f b g2 ds trivial (selfCompat_of_wf ds hwf.2) hb⟩
      · exact (okF_iff_forall f b g2 F0 st.1).mp hok c hcs
  | some ex =>
    have hlbl := lookupChild_label l st.1 ex hlk
    cases ex with
    | tcase l2 loc2 g2 =>
      simp only [TTree.label] at hlbl
      subst l2
      have hadd : addChild st.1 (TTree.tsuite l loc []) =
          ⟨setChild l (TTree.tsuite l loc []) st.1, TTree.tsuite l loc [],
            false, true⟩ := by
        simp only [addChild, TTree.label]
        rw [hlk]
      have hcc0 : cc0 = [] := by
        rw [hadd] at h0
        injection h0 with h1 h2 h3
        exact h3.symm
      subst hcc0
      have ihu := ih hwf.2 trivial
      obtain ⟨iA, iB, iC, iD, iE, iF, iG, iH⟩ := ihu
      have hsubne : (mergeForest g (path ++ [l]) ds
          ([], accAfterAdd (addChild st.1 (TTree.tsuite l loc [])) path st.2)).1 ≠ [] := by
        cases hds : ds with
        | nil =>
          rw [hds] at hwf
          simp [hasCaseForest] at hwf
        | cons d0 ds2 =>
          rw [hds] at iA
          exact realizesForest_ne_nil g _ d0 ds2 iA
      have hres1 : (mergeDecl g path (DeclTree.dsuite l loc ds) st).1 =
          setChild l (TTree.tsuite l loc
            (mergeForest g (path ++ [l]) ds
              ([], accAfterAdd (addChild st.1 (TTree.tsuite l loc [])) path st.2)).1)
            st.1 := by
        rw [hmd]
        simp only [hadd]
        refine setChild_setChild l _ _ st.1 ?_
        rfl
      have hmem : ∀ c ∈ (mergeDecl g path (DeclTree.dsuite l loc ds) st).1,
          c = TTree.tsuite l loc
            (mergeForest g (path ++ [l]) ds
              ([], accAfterAdd (addChild st.1 (TTree.tsuite l loc [])) path st.2)).1 ∨
          (c ∈ st.1 ∧ c.label ≠ l) := by
        intro c hc
        rw [hres1] at hc
        refine mem_setChild_strong l _ st.1 hu ?_ c hc
        rfl
      refine ⟨?_, ?_, ?_, ?_, ?_, ?_, ?_, ?_⟩
      · refine ⟨_, ?_, iA⟩
        rw [hres1]
        refine setChild_lookup_self l _ st.1 ?_
        rfl
      · rw [hres1]
        refine uniq_setChild l _ st.1 hu iB ?_
        rfl
      · intro l2 hne
        simp only [labelOfD] at hne
        rw [hres1]
        refine setChild_lookup_other l l2 _ st.1 ?_ hne
        rfl
      · intro f b ds2 hok
        rw [okF_iff_forall]
        intro c hc
        rcases hmem c hc with rfl | ⟨hcs, hlbl2⟩
        · simp only [okT]
          exact Or.inr (iD f b trivial)
        · exact okT_step_down f b g _ ds2 c (by simpa [labelOfD] using hlbl2)
            ((okF_iff_forall f b g _ st.1).mp hok c hcs)
      · intro g0 hr
        simp only [realizesDecl] at hr
        obtain ⟨cc2, hlk2, _⟩ := hr
        rw [hlk] at hlk2
        cases hlk2
      · intro f b hge hb
        rw [geF_iff_forall]
        intro c hc
        rcases hmem c hc with rfl | ⟨hcs, _⟩
        · simp only [geT]
          exact iF f b trivial hb
        · exact (geF_iff_forall f b st.1).mp hge c hcs
      · intro hne
        rw [neF_iff_forall]
        intro c hc
        rcases hmem c hc with rfl | ⟨hcs, _⟩
        · exact ⟨hsubne, iG trivial⟩
        · exact (neF_iff_forall st.1).mp hne c hcs
      · intro f b g2 F0 hok hcompat hb
        simp only [dCompat] at hcompat
        obtain ⟨loc2c, hfind⟩ := hcompat
        rw [okF_iff_forall]
        intro c hc
        rcases hmem c hc with rfl | ⟨hcs, _⟩
        · simp only [okT]
          exact Or.inl ⟨(loc2c, ds), hfind,
            iH f b g2 ds trivial (selfCompat_of_wf ds hwf.2) hb⟩
        · exact (okF_iff_forall f b g2 F0 st.1).mp hok c hcs
    | tsuite l2 loca cca =>
      simp only [TTree.label] at hlbl
      subst l2
      have hadd : addChild st.1 (TTree.tsuite l loc []) =
          ⟨setChild l (TTree.tsuite l loc cca) st.1, TTree.tsuite l loc cca,
            !locationEquals loc loca, false⟩ := by
        simp only [addChild, TTree.label]
        rw [hlk]
      have hcc0 : cc0 = cca := by
        rw [hadd] at h0
        injection h0 with h1 h2 h3
        exact h3.symm
      subst cc0
      have hucc : uniqForest cca :=
        uniq_lookup_suite l st.1 cca loca hu hlk
      have ihu := ih hwf.2 hucc
      obtain ⟨iA, iB, iC, iD, iE, iF, iG, iH⟩ := ihu
      have hsubne : (mergeForest g (path ++ [l]) ds
          (cca, accAfterAdd (addChild st.1 (TTree.tsuite l loc [])) path st.2)).1 ≠ [] := by
        cases hds : ds with
        | nil =>
          rw [hds] at hwf
          simp [hasCaseForest] at hwf
        | cons d0 ds2 =>
          rw [hds] at iA
          exact realizesForest_ne_nil g _ d0 ds2 iA
      have hres1 : (mergeDecl g path (DeclTree.dsuite l loc ds) st).1 =
          setChild l (TTree.tsuite l loc
            (mergeForest g (path ++ [l]) ds
              (cca, accAfterAdd (addChild st.1 (TTree.tsuite l loc [])) path st.2)).1)
            st.1 := by
        rw [hmd]
        simp only [hadd]
        refine setChild_setChild l _ _ st.1 ?_
        rfl
      have hmem : ∀ c ∈ (mergeDecl g path (DeclTree.dsuite l loc ds) st).1,
          c = TTree.tsuite l loc
            (mergeForest g (path ++ [l]) ds
              (cca, accAfterAdd (addChild st.1 (TTree.tsuite l loc [])) path st.2)).1 ∨
          (c ∈ st.1 ∧ c.label ≠ l) := by
        intro c hc
        rw [hres1] at hc
        refine mem_setChild_strong l _ st.1 hu ?_ c hc
        rfl
      have hexmem : TTree.tsuite l loca cca ∈ st.1 :=
        lookupChild_mem l st.1 _ hlk
      refine ⟨?_, ?_, ?_, ?_, ?_, ?_, ?_, ?_⟩
      · refine ⟨_, ?_, iA⟩
        rw [hres1]
        refine setChild_lookup_self l _ st.1 ?_
        rfl
      · rw [hres1]
        refine uniq_setChild l _ st.1 hu iB ?_
        rfl
      · intro l2 hne
        simp only [labelOfD] at hne
        rw [hres1]
        refine setChild_lookup_other l l2 _ st.1 ?_ hne
        rfl
      · intro f b ds2 hok
        have hokcca : okF f b g ds cca := by
          have hold := (okF_iff_forall f b g _ st.1).mp hok _ hexmem
          simp only [okT] at hold
          rcases hold with ⟨pr, hpr, hokf⟩ | hold
          · have hpr2 : pr = (loc, ds) := by
              simp only [findDeclSuite, if_pos rfl] at hpr
              injection hpr with h2
              exact h2.symm
            rw [hpr2] at hokf
            exact hokf
          · exact okF_mono_nil f b g ds cca hold
        rw [okF_iff_forall]
        intro c hc
        rcases hmem c hc with rfl | ⟨hcs, hlbl2⟩
        · simp only [okT]
          exact Or.inr (iD f b hokcca)
        · exact okT_step_down f b g _ ds2 c (by simpa [labelOfD] using hlbl2)
            ((okF_iff_forall f b g _ st.1).mp hok c hcs)
      · intro g0 hr
        simp only [realizesDecl] at hr
        obtain ⟨cc2, hlk2, hrf⟩ := hr
        rw [hlk] at hlk2
        injection hlk2 with hlk3
        injection hlk3 with hq1 hq2 hq3
        have hle : locationEquals loc loca = true :=
          (locationEquals_iff loc loca).mpr hq2.symm
        have hacc : accAfterAdd (addChild st.1 (TTree.tsuite l loc [])) path st.2 =
            st.2 := by
          simp [hadd, accAfterAdd, hle]
        have hrfcca : realizesForest g0 cca ds := by
          rw [hq3]
          exact hrf
        have hiE := iE g0 hrfcca
        constructor
        · rw [hmd]
          simp only
          rw [hiE.1, hacc]
        · rw [hres1]
          refine eraseGenF_setChild l _ _ st.1 hlk ?_
          simp only [eraseGenT]
          rw [hiE.2, hq2]
      · intro f b hge hb
        have hgecca : geF f b cca := by
          have := (geF_iff_forall f b st.1).mp hge _ hexmem
          simpa [geT] using this
        rw [geF_iff_forall]
        intro c hc
        rcases hmem c hc with rfl | ⟨hcs, _⟩
        · simp only [geT]
          exact iF f b hgecca hb
        · exact (geF_iff_forall f b st.1).mp hge c hcs
      · intro hne
        have hnecca : neF cca := by
          have := (neF_iff_forall st.1).mp hne _ hexmem
          simp only [neT] at this
          exact this.2
        rw [neF_iff_forall]
        intro c hc
        rcases hmem c hc with rfl | ⟨hcs, _⟩
        · exact ⟨hsubne, iG hnecca⟩
        · exact (neF_iff_forall st.1).mp hne c hcs
      · intro f b g2 F0 hok hcompat hb
        simp only [dCompat] at hcompat
        obtain ⟨loc2c, hfind⟩ := hcompat
        have hokcca : okF f b g2 ds cca := by
          have hold := (okF_iff_forall f b g2 F0 st.1).mp hok _ hexmem
          simp only [okT] at hold
          rcases hold with ⟨pr, hpr, hokf⟩ | hold
          · rw [hfind] at hpr
            injection hpr with h2
            rw [← h2] at hokf
            exact hokf
          · exact okF_mono_nil f b g2 ds cca hold
        rw [okF_iff_forall]
        intro c hc
        rcases hmem c hc with rfl | ⟨hcs, _⟩
        · simp only [okT]
          exact Or.inl ⟨(loc2c, ds), hfind,
            iH f b g2 ds hokcca (selfCompat_of_wf ds hwf.2) hb⟩
        · exact (okF_iff_forall f b g2 F0 st.1).mp hok c hcs

theorem mergeForest_ok_nil (g : Nat) (path : TPath)
    (st : List TTree × List TPath) : MergeForestOk g path [] st := by
  intro _ hu
  have h1 : mergeForest g path [] st = st := by simp only [mergeForest]
  refine ⟨?_, ?_, ?_, ?_, ?_, ?_, ?_, ?_⟩
  · rw [h1]
    exact trivial
  · rw [h1]
    exact hu
  · intro l _
    rw [h1]
  · intro f b h
    rw [h1]
    exact h
  · intro g0 _
    rw [h1]
    exact ⟨rfl, rfl⟩
  · intro f b h _
    rw [h1]
    exact h
  · intro h
    rw [h1]
    exact h
  · intro f b g2 F0 h _ _
    rw [h1]
    exact h

theorem mergeForest_ok_cons (g : Nat) (path : TPath) (d : DeclTree)
    (ds : List DeclTree) (st : List TTree × List TPath)
    (ih1 : MergeDeclOk g path d st)
    (ih2 : MergeForestOk g path ds (mergeDecl g path d st)) :
    MergeForestOk g path (d :: ds) st := by
  intro hwf hu
  simp only [wfForest] at hwf
  obtain ⟨hwd, hnl, hwfs⟩ := hwf
  obtain ⟨A1, B1, C1, D1, E1, F1, G1, H1⟩ := ih1 hwd hu
  obtain ⟨A2, B2, C2, D2, E2, F2, G2, H2⟩ := ih2 hwfs B1
  have hmf : mergeForest g path (d :: ds) st =
      mergeForest g path ds (mergeDecl g path d st) := by
    simp only [mergeForest]
  have hlbl_ne : ∀ d2 ∈ ds, labelOfD d2 ≠ labelOfD d := by
    intro d2 hd2 hcon
    exact hnl (hcon ▸ List.mem_map_of_mem labelOfD hd2)
  refine ⟨?_, ?_, ?_, ?_, ?_, ?_, ?_, ?_⟩
  · rw [hmf]
    simp only [realizesForest]
    refine ⟨?_, A2⟩
    refine realizesDecl_congr g (mergeDecl g path d st).1 _ d ?_ A1
    exact (C2 (labelOfD d) hnl).symm
  · rw [hmf]
    exact B2
  · intro l hl
    simp only [labelsOfF, List.map_cons, List.mem_cons] at hl
    push_neg at hl
    rw [hmf, C2 l (by simpa [labelsOfF] using hl.2)]
    exact C1 l hl.1
  · intro f b hok
    rw [hmf]
    exact D2 f b (D1 f b ds hok)
  · intro g0 hr
    simp only [realizesForest] at hr
    have hE1 := E1 g0 hr.1
    have hr2 : realizesForest g0 (mergeDecl g path d st).1 ds := by
      rw [realizesForest_iff_forall]
      intro d2 hd2
      refine realizesDecl_congr g0 st.1 _ d2 ?_
        ((realizesForest_iff_forall g0 st.1 ds).mp hr.2 d2 hd2)
      exact (C1 (labelOfD d2) (hlbl_ne d2 hd2)).symm
    have hE2 := E2 g0 hr2
    rw [hmf]
    exact ⟨hE2.1.trans hE1.1, hE2.2.trans hE1.2⟩
  · intro f b hge hb
    rw [hmf]
    exact F2 f b (F1 f b hge hb) hb
  · intro hne
    rw [hmf]
    exact G2 (G1 hne)
  · intro f b g2 F0 hok hcompat hb
    rw [hmf]
    exact H2 f b g2 F0
      (H1 f b g2 F0 hok (hcompat d (List.mem_cons_self _ _)) hb)
      (fun d2 hd2 => hcompat d2 (List.mem_cons_of_mem _ hd2)) hb

/-- The full invariant bundle for merging one declaration, by mutual
induction with the forest case. -/
theorem mergeDecl_ok (g : Nat) :
    ∀ (path : TPath) (d : DeclTree) (st : List TTree × List TPath),
      MergeDeclOk g path d st := by
  refine mergeDecl.induct g (MergeDeclOk g) (MergeForestOk g) ?_ ?_ ?_ ?_ ?_
  · intro path st l loc
    exact mergeDecl_ok_dcase g path st l loc
  · intro path st l loc children r l1 loc1 g1 hnode
    obtain ⟨cc2, h2⟩ := addChild_suite_node st.1 l loc []
    have hx : (addChild st.1 (TTree.tsuite l loc [])).node =
        TTree.tcase l1 loc1 g1 := hnode
    rw [h2] at hx
    cases hx
  · intro path st l loc children r acc2 l1 loc1 cc1 hnode ihch
    exact mergeDecl_ok_dsuite g path st l loc children l1 loc1 cc1 hnode ihch
  · intro path st
    exact mergeForest_ok_nil g path st
  · intro path st d ds ih1 ih2
    exact mergeForest_ok_cons g path d ds st ih1 ih2

/-- The full invariant bundle for merging a forest. -/
theorem mergeForest_ok (g : Nat) (path : TPath) (F : List DeclTree)
    (st : List TTree × List TPath) : MergeForestOk g path F st := by
  induction F generalizing st with
  | nil => exact mergeForest_ok_nil g path st
  | cons d ds ih =>
    exact mergeForest_ok_cons g path d ds st (mergeDecl_ok g path d st)
      (ih (mergeDecl g path d st))

theorem pruneKeep_label (f : String) (g : Nat) (c v : TTree)
    (h : pruneKeep f g c = some v) : v.label = c.label := by
  cases c with
  | tcase l loc gen =>
    simp only [pruneKeep] at h
    by_cases hc : loc.uri = f ∧ gen < g
    · rw [if_pos hc] at h
      cases h
    · rw [if_neg hc] at h
      injection h with h2
      rw [← h2]
  | tsuite l loc cc =>
    simp only [pruneKeep] at h
    by_cases hc : (pruneKeepList f g cc).isEmpty = true
    · rw [if_pos hc] at h
      cases h
    · rw [if_neg hc] at h
      injection h with h2
      rw [← h2]
      rfl

theorem labelsOfT_pruneKeepList_sub (f : String) (g : Nat) (cs : List TTree) :
    ∀ x ∈ labelsOfT (pruneKeepList f g cs), x ∈ labelsOfT cs := by
  induction cs with
  | nil =>
    intro x hx
    exact hx
  | cons c rest ih =>
    intro x hx
    cases hk : pruneKeep f g c with
    | none =>
      simp only [pruneKeepList, hk] at hx
      exact List.mem_cons_of_mem _ (ih x hx)
    | some c2 =>
      simp only [pruneKeepList, hk, labelsOfT, List.map_cons,
        List.mem_cons] at hx
      rcases hx with rfl | hx
      · have hl2 := pruneKeep_label f g c c2 hk
        simp only [labelsOfT, List.map_cons, List.mem_cons]
        exact Or.inl hl2
      · exact List.mem_cons_of_mem _ (ih x hx)

theorem pruneKeep_ge (f : String) (g : Nat) :
    ∀ c : TTree, ∀ v, pruneKeep f g c = some v → geT f g v := by
  refine pruneKeep.induct f g
    (fun c => ∀ v, pruneKeep f g c = some v → geT f g v)
    (fun cs => geF f g (pruneKeepList f g cs)) ?_ ?_ ?_ ?_ ?_ ?_ ?_
  · intro l loc gen hst v h
    simp only [pruneKeep, if_pos hst] at h
    cases h
  · intro l loc gen hst v h
    simp only [pruneKeep, if_neg hst] at h
    injection h with h2
    subst h2
    simp only [geT]
    intro huri
    by_cases hlt : gen < g
    · exact absurd ⟨huri, hlt⟩ hst
    · omega
  · intro l loc cc kept hemp ih v h
    have hemp2 : (pruneKeepList f g cc).isEmpty = true := hemp
    simp only [pruneKeep, if_pos hemp2] at h
    cases h
  · intro l loc cc kept hemp ih v h
    have hemp2 : ¬(pruneKeepList f g cc).isEmpty = true := hemp
    simp only [pruneKeep, if_neg hemp2] at h
    injection h with h2
    subst h2
    simp only [geT]
    exact ih
  · simp [pruneKeepList, geF]
  · intro c cs hk ih1 ih2
    simp only [pruneKeepList, hk]
    exact ih2
  · intro c cs c2 hk ih1 ih2
    simp only [pruneKeepList, hk, geF]
    exact ⟨ih1 c2 hk, ih2⟩

theorem pruneKeepList_ge (f : String) (g : Nat) (cs : List TTree) :
    geF f g (pruneKeepList f g cs) := by
  induction cs with
  | nil => simp [pruneKeepList, geF]
  | cons c rest ih =>
    cases hk : pruneKeep f g c with
    | none =>
      simp only [pruneKeepList, hk]
      exact ih
    | some c2 =>
      simp only [pruneKeepList, hk, geF]
      exact ⟨pruneKeep_ge f g c c2 hk, ih⟩

theorem pruneKeep_ne (f : String) (g : Nat) :
    ∀ c : TTree, ∀ v, pruneKeep f g c = some v → neT v := by
  refine pruneKeep.induct f g
    (fun c => ∀ v, pruneKeep f g c = some v → neT v)
    (fun cs => neF (pruneKeepList f g cs)) ?_ ?_ ?_ ?_ ?_ ?_ ?_
  · intro l loc gen hst v h
    simp only [pruneKeep, if_pos hst] at h
    cases h
  · intro l loc gen hst v h
    simp only [pruneKeep, if_neg hst] at h
    injection h with h2
    subst h2
    trivial
  · intro l loc cc kept hemp ih v h
    have hemp2 : (pruneKeepList f g cc).isEmpty = true := hemp
    simp only [pruneKeep, if_pos hemp2] at h
    cases h
  · intro l loc cc kept hemp ih v h
    have hemp2 : ¬(pruneKeepList f g cc).isEmpty = true := hemp
    simp only [pruneKeep, if_neg hemp2] at h
    injection h with h2
    subst h2
    refine ⟨?_, ih⟩
    intro hnil
    exact hemp2 (by rw [hnil]; rfl)
  · simp [pruneKeepList, neF]
  · intro c cs hk ih1 ih2
    simp only [pruneKeepList, hk]
    exact ih2
  · intro c cs c2 hk ih1 ih2
    simp only [pruneKeepList, hk, neF]
    exact ⟨ih1 c2 hk, ih2⟩

theorem pruneKeepList_ne (f : String) (g : Nat) (cs : List TTree) :
    neF (pruneKeepList f g cs) := by
  induction cs with
  | nil => simp [pruneKeepList, neF]
  | cons c rest ih =>
    cases hk : pruneKeep f g c with
    | none =>
      simp only [pruneKeepList, hk]
      exact ih
    | some c2 =>
      simp only [pruneKeepList, hk, neF]
      exact ⟨pruneKeep_ne f g c c2 hk, ih⟩

theorem pruneKeep_uniq (f : String) (g : Nat) :
    ∀ c : TTree, ∀ v, pruneKeep f g c = some v → uniqTree c → uniqTree v := by
  refine pruneKeep.induct f g
    (fun c => ∀ v, pruneKeep f g c = some v → uniqTree c → uniqTree v)
    (fun cs => uniqForest cs → uniqForest (pruneKeepList f g cs)) ?_ ?_ ?_ ?_ ?_ ?_ ?_
  · intro l loc gen hst v h
    simp only [pruneKeep, if_pos hst] at h
    cases h
  · intro l loc gen hst v h _
    simp only [pruneKeep, if_neg hst] at h
    injection h with h2
    subst h2
    trivial
  · intro l loc cc kept hemp ih v h
    have hemp2 : (pruneKeepList f g cc).isEmpty = true := hemp
    simp only [pruneKeep, if_pos hemp2] at h
    cases h
  · intro l loc cc kept hemp ih v h hu
    have hemp2 : ¬(pruneKeepList f g cc).isEmpty = true := hemp
    simp only [pruneKeep, if_neg hemp2] at h
    injection h with h2
    subst h2
    exact ih hu
  · intro _
    trivial
  · intro c cs hk ih1 ih2 hu
    simp only [uniqForest] at hu
    simp only [pruneKeepList, hk]
    exact ih2 hu.2.2
  · intro c cs c2 hk ih1 ih2 hu
    simp only [uniqForest] at hu
    simp only [pruneKeepList, hk, uniqForest]
    refine ⟨ih1 c2 hk hu.1, ?_, ih2 hu.2.2⟩
    intro hmem
    apply hu.2.1
    rw [← pruneKeep_label f g c c2 hk]
    exact labelsOfT_pruneKeepList_sub f g cs _ hmem

theorem pruneKeepList_uniq (f : String) (g : Nat) (cs : List TTree)
    (hu : uniqForest cs) : uniqForest (pruneKeepList f g cs) := by
  induction cs with
  | nil => trivial
  | cons c rest ih =>
    simp only [uniqForest] at hu
    cases hk : pruneKeep f g c with
    | none =>
      simp only [pruneKeepList, hk]
      exact ih hu.2.2
    | some c2 =>
      simp only [pruneKeepList, hk, uniqForest]
      refine ⟨pruneKeep_uniq f g c c2 hk hu.1, ?_, ih hu.2.2⟩
      intro hmem
      apply hu.2.1
      rw [← pruneKeep_label f g c c2 hk]
      exact labelsOfT_pruneKeepList_sub f g rest _ hmem

theorem lookup_pruneKeepList (f : String) (g : Nat) (l : String)
    (cs : List TTree) (hu : uniqForest cs) :
    lookupChild l (pruneKeepList f g cs) =
      (lookupChild l cs).bind (pruneKeep f g) := by
  induction cs with
  | nil => simp [pruneKeepList, lookupChild]
  | cons c rest ih =>
    simp only [uniqForest] at hu
    simp only [lookupChild]
    by_cases h0 : c.label = l
    · rw [if_pos h0]
      cases hk : pruneKeep f g c with
      | none =>
        have hnone : lookupChild l (pruneKeepList f g rest) = none := by
          rw [lookupChild_none_iff]
          intro hmem
          apply hu.2.1
          rw [h0]
          exact labelsOfT_pruneKeepList_sub f g rest _ hmem
        simp only [pruneKeepList, hk, Option.some_bind, hnone]
      | some c2 =>
        simp only [pruneKeepList, hk, Option.some_bind, lookupChild]
        rw [if_pos (by rw [pruneKeep_label f g c c2 hk]; exact h0)]
    · rw [if_neg h0]
      cases hk : pruneKeep f g c with
      | none =>
        simp only [pruneKeepList, hk]
        exact ih hu.2.2
      | some c2 =>
        simp only [pruneKeepList, hk, Option.some_bind, lookupChild]
        rw [if_neg (by rw [pruneKeep_label f g c c2 hk]; exact h0)]
        exact ih hu.2.2

theorem pruneKeep_ok (f : String) (g : Nat) :
    ∀ c : TTree, ∀ b g2 F0 v, pruneKeep f g c = some v →
      okT f b g2 F0 c → okT f b g2 F0 v := by
  refine pruneKeep.induct f g
    (fun c => ∀ b g2 F0 v, pruneKeep f g c = some v →
      okT f b g2 F0 c → okT f b g2 F0 v)
    (fun cs => ∀ b g2 F0, okF f b g2 F0 cs →
      okF f b g2 F0 (pruneKeepList f g cs)) ?_ ?_ ?_ ?_ ?_ ?_ ?_
  · intro l loc gen hst b g2 F0 v h
    simp only [pruneKeep, if_pos hst] at h
    cases h
  · intro l loc gen hst b g2 F0 v h hok
    simp only [pruneKeep, if_neg hst] at h
    injection h with h2
    subst h2
    exact hok
  · intro l loc cc kept hemp ih b g2 F0 v h
    have hemp2 : (pruneKeepList f g cc).isEmpty = true := hemp
    simp only [pruneKeep, if_pos hemp2] at h
    cases h
  · intro l loc cc kept hemp ih b g2 F0 v h hok
    have hemp2 : ¬(pruneKeepList f g cc).isEmpty = true := hemp
    simp only [pruneKeep, if_neg hemp2] at h
    injection h with h2
    subst h2
    simp only [okT] at hok ⊢
    rcases hok with ⟨pr, hpr, hokf⟩ | hok
    · exact Or.inl ⟨pr, hpr, ih b g2 pr.2 hokf⟩
    · exact Or.inr (ih b g2 [] hok)
  · intro b g2 F0 _
    trivial
  · intro c cs hk ih1 ih2 b g2 F0 hok
    simp only [okF] at hok
    simp only [pruneKeepList, hk]
    exact ih2 b g2 F0 hok.2
  · intro c cs c2 hk ih1 ih2 b g2 F0 hok
    simp only [okF] at hok
    simp only [pruneKeepList, hk, okF]
    exact ⟨ih1 b g2 F0 c2 hk hok.1, ih2 b g2 F0 hok.2⟩

theorem pruneKeepList_ok (f : String) (g b g2 : Nat) (F0 : List DeclTree)
    (cs : List TTree) (hok : okF f b g2 F0 cs) :
    okF f b g2 F0 (pruneKeepList f g cs) := by
  induction cs with
  | nil => trivial
  | cons c rest ih =>
    simp only [okF] at hok
    cases hk : pruneKeep f g c with
    | none =>
      simp only [pruneKeepList, hk]
      exact ih hok.2
    | some c2 =>
      simp only [pruneKeepList, hk, okF]
      exact ⟨pruneKeep_ok f g c b g2 F0 c2 hk hok.1, ih hok.2⟩

theorem realizes_pruneKeepList (f : String) (g : Nat) :
    ∀ (cs : List TTree) (d : DeclTree), wfDecl d → uniqForest cs →
      realizesDecl g cs d → realizesDecl g (pruneKeepList f g cs) d := by
  refine realizesDecl.induct g
    (fun cs d => wfDecl d → uniqForest cs →
      realizesDecl g cs d → realizesDecl g (pruneKeepList f g cs) d)
    (fun cs F => wfForest F → uniqForest cs →
      realizesForest g cs F → realizesForest g (pruneKeepList f g cs) F)
    ?_ ?_ ?_ ?_
  · intro cs l loc _ hu hr
    simp only [realizesDecl] at hr ⊢
    rw [lookup_pruneKeepList f g l cs hu, hr]
    simp only [Option.some_bind, pruneKeep]
    rw [if_neg]
    intro hcon
    omega
  · intro cs l loc ds ih hwf hu hr
    simp only [realizesDecl] at hr ⊢
    obtain ⟨cc, hlk, hrf⟩ := hr
    simp only [wfDecl] at hwf
    have hucc : uniqForest cc := uniq_of_mem cs _ hu (lookupChild_mem l cs _ hlk)
    have hrf2 : realizesForest g (pruneKeepList f g cc) ds :=
      ih cc hwf.2 hucc hrf
    have hnn : pruneKeepList f g cc ≠ [] := by
      cases hds : ds with
      | nil =>
        rw [hds] at hwf
        simp [hasCaseForest] at hwf
      | cons d0 ds2 =>
        rw [hds] at hrf2
        exact realizesForest_ne_nil g _ d0 ds2 hrf2
    refine ⟨pruneKeepList f g cc, ?_, hrf2⟩
    rw [lookup_pruneKeepList f g l cs hu, hlk]
    simp only [Option.some_bind, pruneKeep]
    rw [if_neg]
    intro hcon
    exact hnn (List.isEmpty_iff.mp hcon)
  · intro cs _ _ _
    trivial
  · intro cs d ds ih1 ih2 hwf hu hr
    simp only [wfForest] at hwf
    simp only [realizesForest] at hr ⊢
    exact ⟨ih1 hwf.1 hu hr.1, ih2 hwf.2.2 hu hr.2⟩

theorem pruneKeep_self (f : String) (g : Nat) :
    ∀ c : TTree, geT f g c → neT c → pruneKeep f g c = some c := by
  refine pruneKeep.induct f g
    (fun c => geT f g c → neT c → pruneKeep f g c = some c)
    (fun cs => geF f g cs → neF cs → pruneKeepList f g cs = cs) ?_ ?_ ?_ ?_ ?_ ?_ ?_
  · intro l loc gen hst hge _
    simp only [geT] at hge
    exact absurd hst (by intro h; have := hge h.1; omega)
  · intro l loc gen hst _ _
    simp only [pruneKeep, if_neg hst]
  · intro l loc cc kept hemp ih hge hne
    simp only [geT] at hge
    simp only [neT] at hne
    have hemp2 : (pruneKeepList f g cc).isEmpty = true := hemp
    rw [ih hge hne.2] at hemp2
    exact absurd (List.isEmpty_iff.mp hemp2) hne.1
  · intro l loc cc kept hemp ih hge hne
    simp only [geT] at hge
    simp only [neT] at hne
    have hemp2 : ¬(pruneKeepList f g cc).isEmpty = true := hemp
    simp only [pruneKeep, if_neg hemp2]
    rw [ih hge hne.2]
  · intro _ _
    rfl
  · intro c cs hk ih1 ih2 hge hne
    simp only [geF] at hge
    simp only [neF] at hne
    rw [ih1 hge.1 hne.1] at hk
    cases hk
  · intro c cs c2 hk ih1 ih2 hge hne
    simp only [geF] at hge
    simp only [neF] at hne
    have hk2 := ih1 hge.1 hne.1
    rw [hk] at hk2
    injection hk2 with hk3
    simp only [pruneKeepList, hk, hk3, ih2 hge.2 hne.2]

theorem pruneKeepList_self (f : String) (g : Nat) (cs : List TTree)
    (hge : geF f g cs) (hne : neF cs) : pruneKeepList f g cs = cs := by
  induction cs with
  | nil => rfl
  | cons c rest ih =>
    simp only [geF] at hge
    simp only [neF] at hne
    have hk := pruneKeep_self f g c hge.1 hne.1
    simp only [pruneKeepList, hk, ih hge.2 hne.2]

/-- When no case is stale and no suite is empty, pruning is the identity on
both the tree and the change accumulator. -/
theorem pruneChildren_id (p : TPath) (f : String) (g : Nat) (cs : List TTree)
    (ch : List TPath) (hge : geF f g cs) (hne : neF cs) :
    pruneChildren p f g cs ch = (cs, ch) := by
  induction p, f, g, cs, ch using pruneChildren.induct with
  | case1 p f g ch => simp [pruneChildren]
  | case2 p f gen l loc g rest ch hst ih =>
    simp only [geF, geT] at hge
    exact absurd hst (by intro h; have := hge.1 h.1; omega)
  | case3 p f gen l loc g rest ch hst ih =>
    simp only [geF] at hge
    simp only [neF] at hne
    simp only [pruneChildren, if_neg hst, ih hge.2 hne.2]
  | case4 p f gen l loc cc rest ch inner hEmpty ihInner ihRest =>
    simp only [geF, geT] at hge
    simp only [neF, neT] at hne
    have hE : (pruneChildren (p ++ [l]) f gen cc ch).1.isEmpty = true := hEmpty
    rw [ihInner hge.1 hne.1.2] at hE
    exact absurd (List.isEmpty_iff.mp hE) hne.1.1
  | case5 p f gen l loc cc rest ch inner hEmpty ihInner ihRest =>
    simp only [geF, geT] at hge
    simp only [neF, neT] at hne
    have hE : ¬(pruneChildren (p ++ [l]) f gen cc ch).1.isEmpty = true := hEmpty
    have hin := ihInner hge.1 hne.1.2
    have hr2 := ihRest hge.2 hne.2
    have hi2 : (pruneChildren (p ++ [l]) f gen cc ch).2 = ch := by
      rw [hin]
    rw [hi2] at hr2
    have hcc : ¬cc.isEmpty = true := fun h => hne.1.1 (List.isEmpty_iff.mp h)
    simp only [pruneChildren, if_neg hE, hin, hr2, if_neg hcc]

mutual

theorem geT_of_ok_escape (f : String) (b g2 : Nat) (c : TTree)
    (hok : okT f b g2 [] c) (hge : geT f b c) : geT f g2 c := by
  cases c with
  | tcase l loc gen =>
    simp only [okT] at hok
    simp only [geT] at hge ⊢
    intro huri
    rcases hok huri (hge huri) with h | h
    · exact h
    · simp [findDeclCase] at h
  | tsuite l loc cc =>
    simp only [okT] at hok
    simp only [geT] at hge ⊢
    rcases hok with ⟨pr, hpr, _⟩ | hok
    · simp [findDeclSuite] at hpr
    · exact geF_of_ok_escape f b g2 cc hok hge

theorem geF_of_ok_escape (f : String) (b g2 : Nat) (cs : List TTree)
    (hok : okF f b g2 [] cs) (hge : geF f b cs) : geF f g2 cs := by
  cases cs with
  | nil => trivial
  | cons c rest =>
    simp only [okF] at hok
    simp only [geF] at hge ⊢
    exact ⟨geT_of_ok_escape f b g2 c hok.1 hge.1,
      geF_of_ok_escape f b g2 rest hok.2 hge.2⟩

end

mutual

theorem geT_of_below_zero (f : String) (g : Nat) (c : TTree)
    (h : belowT f 0 c) : geT f g c := by
  cases c with
  | tcase l loc gen =>
    simp only [belowT] at h
    simp only [geT]
    intro huri
    exact absurd (h huri) (by omega)
  | tsuite l loc cc =>
    simp only [belowT] at h
    simp only [geT]
    exact geF_of_below_zero f g cc h

theorem geF_of_below_zero (f : String) (g : Nat) (cs : List TTree)
    (h : belowF f 0 cs) : geF f g cs := by
  cases cs with
  | nil => trivial
  | cons c rest =>
    simp only [belowF] at h
    simp only [geF]
    exact ⟨geT_of_below_zero f g c h.1, geF_of_below_zero f g rest h.2⟩

end

theorem realizesF_pruneKeepList (f : String) (g : Nat) (cs : List TTree)
    (F : List DeclTree) (hwf : wfForest F) (hu : uniqForest cs)
    (hr : realizesForest g cs F) :
    realizesForest g (pruneKeepList f g cs) F := by
  induction F with
  | nil => trivial
  | cons d ds ih =>
    simp only [wfForest] at hwf
    simp only [realizesForest] at hr ⊢
    exact ⟨realizes_pruneKeepList f g cs d hwf.1 hu hr.1, ih hwf.2.2 hr.2⟩

def demoCallA1 : TsNode :=
  TsNode.callExpr (TsNode.ident "test")
    [TsNode.stringLit "a" 0 1, TsNode.funcLike 2 3 []]

def demoCallA2 : TsNode :=
  TsNode.callExpr (TsNode.ident "test")
    [TsNode.stringLit "a" 10 11, TsNode.funcLike 12 13 []]

def demoSuiteAst : List TsNode :=
  [TsNode.callExpr (TsNode.ident "suite")
    [TsNode.stringLit "s" 0 1,
     TsNode.funcLike 2 20
       [TsNode.callExpr (TsNode.ident "test")
         [TsNode.stringLit "t" 3 4, TsNode.funcLike 5 6 []]]]]

theorem discoverFile_id_of_good (t1 : List TTree) (ast : List TsNode)
    (g2 : Nat) (f : String) (lc : Nat → Pos)
    (hge2 : geF f g2 (mergeForest g2 [] (forestOfList f lc ast) (t1, [])).1)
    (hne2 : neF (mergeForest g2 [] (forestOfList f lc ast) (t1, [])).1) :
    discoverFile t1 ast g2 f lc =
      ((mergeForest g2 [] (forestOfList f lc ast) (t1, [])).1,
        (mergeForest g2 [] (forestOfList f lc ast) (t1, [])).2) := by
  simp only [discoverFile, traverse_eq_merge_list]
  exact pruneChildren_id [] f g2 _ _ hge2 hne2

/-- Claim C4 (amended): when the file's recognized declarations carry
pairwise-distinct labels at every nesting level and every declared suite
transitively contains a case, the pre-existing tree has unique sibling
labels, every case of the file in it predates the first pass, and the second
pass uses a strictly larger generation, then the second discovery pass over
the unchanged text reports an empty change set and leaves the tree unchanged
up to generation stamps. -/
theorem discoverFile_idempotent (t0 : List TTree) (ast : List TsNode)
    (g1 g2 : Nat) (f : String) (lc : Nat → Pos)
    (hwf : wfForest (forestOfList f lc ast))
    (hu0 : uniqForest t0)
    (hb0 : belowF f g1 t0)
    (hg : g1 < g2) :
    (discoverFile (discoverFile t0 ast g1 f lc).1 ast g2 f lc).2 = [] ∧
    eraseGenF (discoverFile (discoverFile t0 ast g1 f lc).1 ast g2 f lc).1 =
      eraseGenF (discoverFile t0 ast g1 f lc).1 := by
  have ht1 : (discoverFile t0 ast g1 f lc).1 =
      pruneKeepList f g1
        (mergeForest g1 [] (forestOfList f lc ast) (t0, [])).1 := by
    simp only [discoverFile, traverse_eq_merge_list, pruneChildren_fst]
  obtain ⟨A1, B1, -, -, -, -, -, H1⟩ :=
    mergeForest_ok g1 [] (forestOfList f lc ast) (t0, []) hwf hu0
  have hu1 : uniqForest (discoverFile t0 ast g1 f lc).1 := by
    rw [ht1]
    exact pruneKeepList_uniq f g1 _ B1
  have hr1 : realizesForest g1 (discoverFile t0 ast g1 f lc).1
      (forestOfList f lc ast) := by
    rw [ht1]
    exact realizesF_pruneKeepList f g1 _ _ hwf B1 A1
  have hok1 : okF f g1 g2 (forestOfList f lc ast)
      (discoverFile t0 ast g1 f lc).1 := by
    rw [ht1]
    exact pruneKeepList_ok f g1 g1 g2 _ _
      (H1 f g1 g2 (forestOfList f lc ast)
        (okF_of_below f g1 g2 _ t0 hb0) (selfCompat_of_wf _ hwf) (le_refl g1))
  have hge1 : geF f g1 (discoverFile t0 ast g1 f lc).1 := by
    rw [ht1]
    exact pruneKeepList_ge f g1 _
  have hne1 : neF (discoverFile t0 ast g1 f lc).1 := by
    rw [ht1]
    exact pruneKeepList_ne f g1 _
  obtain ⟨-, -, -, D2, E2, F2, G2, -⟩ :=
    mergeForest_ok g2 [] (forestOfList f lc ast)
      ((discoverFile t0 ast g1 f lc).1, []) hwf hu1
  have hE2 := E2 g1 hr1
  have hge2 : geF f g2
      (mergeForest g2 [] (forestOfList f lc ast)
        ((discoverFile t0 ast g1 f lc).1, [])).1 :=
    geF_of_ok_escape f g1 g2 _ (D2 f g1 hok1) (F2 f g1 hge1 (le_of_lt hg))
  have hne2 : neF (mergeForest g2 [] (forestOfList f lc ast)
      ((discoverFile t0 ast g1 f lc).1, [])).1 := G2 hne1
  rw [discoverFile_id_of_good (discoverFile t0 ast g1 f lc).1 ast g2 f lc
    hge2 hne2]
  exact ⟨hE2.1, by rw [hE2.2]⟩

/-- Claim C4 counterexample: with two `test('a', ...)` calls at different
positions in the same file — same label, so the map keeps one node whose
location flips between the two ranges — the second discovery pass over the
unchanged text reports the test as changed again: its change set is
`[["a"]]`, not empty. -/
theorem discoverFile_idempotent_counterexample :
    (discoverFile (discoverFile [] [demoCallA1, demoCallA2] 0
        "file:///a.test.ts" demoLc).1
      [demoCallA1, demoCallA2] 1 "file:///a.test.ts" demoLc).2 = [["a"]] ∧
    [["a"]] ≠ ([] : List TPath) := by
  constructor
  · simp [discoverFile, pruneChildren, traverseListTs, traverseNode,
      demoCallA1, demoCallA2, extractTestFromNode, candOf, addChild,
      accAfterAdd, lookupChild, setChild, setAddP, setDelP, TTree.label,
      locationEquals, demoLc]
  · simp

/-- Concrete instantiation of `discoverFile_idempotent` on a file declaring
one suite containing one test. -/
theorem discoverFile_idempotent_witness :
    (discoverFile (discoverFile [] demoSuiteAst 0 "file:///a.test.ts"
        demoLc).1 demoSuiteAst 1 "file:///a.test.ts" demoLc).2 = [] ∧
    eraseGenF (discoverFile (discoverFile [] demoSuiteAst 0 "file:///a.test.ts"
        demoLc).1 demoSuiteAst 1 "file:///a.test.ts" demoLc).1 =
      eraseGenF (discoverFile [] demoSuiteAst 0 "file:///a.test.ts" demoLc).1 :=
  discoverFile_idempotent [] demoSuiteAst 0 1 "file:///a.test.ts" demoLc
    (by simp [demoSuiteAst, forestOfList, forestOfNode, extractTestFromNode,
      demoLc, wfForest, wfDecl, hasCaseForest, hasCaseDecl, labelsOfF,
      labelOfD])
    trivial trivial (by decide)

/-- Claim C8 (amended): a top-level node whose label is not among the file's
declared labels, whose subtree holds no case located in the file, and whose
subtree has no empty suite, survives the file's discovery pass untouched —
but only node labels scope ownership: nothing in `addChild` or `prune`
consults which file created a node, so the caveats are essential. -/
theorem discoverFile_frame (t0 : List TTree) (ast : List TsNode) (g : Nat)
    (f : String) (lc : Nat → Pos) (l : String) (sub : TTree)
    (hwf : wfForest (forestOfList f lc ast))
    (hu0 : uniqForest t0)
    (hl : l ∉ labelsOfF (forestOfList f lc ast))
    (hlk : lookupChild l t0 = some sub)
    (hfile : belowT f 0 sub)
    (hne : neT sub) :
    lookupChild l (discoverFile t0 ast g f lc).1 = some sub := by
  have ht1 : (discoverFile t0 ast g f lc).1 =
      pruneKeepList f g
        (mergeForest g [] (forestOfList f lc ast) (t0, [])).1 := by
    simp only [discoverFile, traverse_eq_merge_list, pruneChildren_fst]
  obtain ⟨-, B1, C1, -, -, -, -, -⟩ :=
    mergeForest_ok g [] (forestOfList f lc ast) (t0, []) hwf hu0
  rw [ht1, lookup_pruneKeepList f g l _ B1, C1 l hl,
    show lookupChild l (t0, ([] : List TPath)).1 = some sub from hlk]
  simp only [Option.some_bind]
  exact pruneKeep_self f g sub (geT_of_below_zero f g sub hfile) hne

/-- Claim C8 counterexample: a `test('a', ...)` discovery pass in file `a`
merges into a same-label node created for file `b` (at `locEx3`), overwriting
its location and generation in place: cross-file identity does occur when
labels collide, so the unconditional ownership claim fails. -/
theorem discoverFile_frame_counterexample :
    (discoverFile [TTree.tcase "a" locEx3 0] [demoCallA1] 1
        "file:///a.test.ts" demoLc).1 =
      [TTree.tcase "a" ⟨"file:///a.test.ts", ⟨⟨0, 0⟩, ⟨0, 3⟩⟩⟩ 1] ∧
    TTree.tcase "a" locEx3 0 ∉
      (discoverFile [TTree.tcase "a" locEx3 0] [demoCallA1] 1
        "file:///a.test.ts" demoLc).1 := by
  have h : (discoverFile [TTree.tcase "a" locEx3 0] [demoCallA1] 1
      "file:///a.test.ts" demoLc).1 =
      [TTree.tcase "a" ⟨"file:///a.test.ts", ⟨⟨0, 0⟩, ⟨0, 3⟩⟩⟩ 1] := by
    simp [discoverFile, pruneChildren, traverseListTs, traverseNode,
      demoCallA1, extractTestFromNode, candOf, addChild, accAfterAdd,
      lookupChild, setChild, setAddP, setDelP, TTree.label, locationEquals,
      demoLc, locEx3]
  refine ⟨h, ?_⟩
  rw [h]
  simp [locEx3]

/-- Concrete instantiation of `discoverFile_frame`: a node of file `b` under
a label the discovered file does not declare survives the pass unchanged. -/
theorem discoverFile_frame_witness :
    lookupChild "b" (discoverFile [TTree.tcase "b" locEx3 0] demoSuiteAst 1
      "file:///a.test.ts" demoLc).1 = some (TTree.tcase "b" locEx3 0) :=
  discoverFile_frame [TTree.tcase "b" locEx3 0] demoSuiteAst 1
    "file:///a.test.ts" demoLc "b" (TTree.tcase "b" locEx3 0)
    (by simp [demoSuiteAst, forestOfList, forestOfNode, extractTestFromNode,
      demoLc, wfForest, wfDecl, hasCaseForest, hasCaseDecl, labelsOfF,
      labelOfD])
    (by simp [uniqForest, uniqTree, labelsOfT])
    (by simp [demoSuiteAst, forestOfList, forestOfNode, extractTestFromNode,
      suiteNames, demoLc, labelsOfF, labelOfD])
    (by rfl)
    (by simp [belowT, locEx3])
    trivial

/-- Mocha events of the run-output stream, as decoded by `TestOutputScanner`
and consumed by the `onMochaEvent` handler of `scanTestOutput`. -/
inductive MEvent where
  | start
  | testStart (fullTitle : String)
  | pass (fullTitle : String) (duration : Nat)
  | fail (fullTitle : String)
  | endEv

/-- Terminal states reported to the `vscode.TestRun` (`task.passed`,
`task.failed`, `task.skipped`), with test items named by numeric ids. -/
inductive Emit where
  | passed (id : Nat) (duration : Nat)
  | failed (id : Nat)
  | skippedE (id : Nat)
deriving DecidableEq

def titlesOf (l : List (String × Nat)) : List String := l.map Prod.fst

def idsOf (l : List (String × Nat)) : List Nat := l.map Prod.snd

/-- `tests.get(title)`: the `Map` holds at most one entry per key; on the
association list, the first match. -/
def lookupTitle (t : String) : List (String × Nat) → Option Nat
  | [] => none
  | (t2, i) :: rest => if t2 = t then some i else lookupTitle t rest

/-- `tests.delete(title)`. -/
def eraseTitle (t : String) (l : List (String × Nat)) : List (String × Nat) :=
  l.filter (fun p => p.1 ≠ t)

def headMatches : List Char → List Char → Bool
  | [], _ => true
  | _ :: _, [] => false
  | a :: as, b :: bs => a == b && headMatches as bs

def containsSub (pat : List Char) : List Char → Bool
  | [] => headMatches pat []
  | c :: cs => headMatches pat (c :: cs) || containsSub pat cs

/-- `id.includes('hook for')`. -/
def hasHookMarker (s : String) : Bool :=
  containsSub "hook for".data s.data

/-- The mutable state of one `scanTestOutput` invocation: the pending map
`tests`, the `skippedTests` set (initialized to all of the map's values),
`lastTest`, `currentTest`, `ranAnyTest`, and the terminal states emitted so
far. -/
structure ScanState where
  tests : List (String × Nat)
  skipped : List Nat
  lastTest : Option Nat
  currentTest : Option Nat
  ranAnyTest : Bool
  emits : List Emit

def initState (tests0 : List (String × Nat)) : ScanState :=
  ⟨tests0, idsOf tests0, none, none, false, []⟩

/-- `tests.values().next().value`. -/
def firstValue (l : List (String × Nat)) : Option Nat :=
  l.head?.map Prod.snd

/-- One step of the `onMochaEvent` handler: `TestStart` resolves
`currentTest` and unmarks it as skipped; `Pass` on a pending title emits
`Passed` with the duration, records `lastTest` and deletes the title;
`Fail` on a pending title emits `Failed` and deletes the title, and a
hook-failure title not in the map falls back to `lastTest` or the map's
first value; `Start` and `End` change no correlator state. -/
def processEvent (s : ScanState) : MEvent → ScanState
  | MEvent.start => s
  | MEvent.testStart t =>
    match lookupTitle t s.tests with
    | some i =>
      { s with
        currentTest := some i
        skipped := s.skipped.erase i
        ranAnyTest := true }
    | none => { s with currentTest := none, ranAnyTest := true }
  | MEvent.pass t d =>
    match lookupTitle t s.tests with
    | some i =>
      { s with
        lastTest := some i
        tests := eraseTitle t s.tests
        emits := s.emits ++ [Emit.passed i d] }
    | none => s
  | MEvent.fail t =>
    match lookupTitle t s.tests with
    | some i =>
      { s with
        tests := eraseTitle t s.tests
        emits := s.emits ++ [Emit.failed i] }
    | none =>
      if hasHookMarker t then
        match s.lastTest with
        | some i =>
          { s with
            tests := eraseTitle t s.tests
            emits := s.emits ++ [Emit.failed i] }
        | none =>
          match firstValue s.tests with
          | some i =>
            { s with
              tests := eraseTitle t s.tests
              emits := s.emits ++ [Emit.failed i] }
          | none => s
      else s
  | MEvent.endEv => s

/-- The correlator state after processing a whole event trace. -/
def runScan (tests0 : List (String × Nat)) (evs : List MEvent) : ScanState :=
  evs.foldl processEvent (initState tests0)

/-- All terminal states reported by the run, including the `finally` block
marking every entry left in `skippedTests` as skipped. -/
def finishScan (s : ScanState) : List Emit :=
  s.emits ++ s.skipped.map Emit.skippedE

def emitId : Emit → Nat
  | Emit.passed j _ => j
  | Emit.failed j => j
  | Emit.skippedE j => j

def isTerminalFor (i : Nat) (e : Emit) : Bool := emitId e == i

/-- How many terminal states the run reported for test `i`. -/
def terminalCount (i : Nat) (es : List Emit) : Nat :=
  (es.filter (isTerminalFor i)).length

/-- Trace discipline of a well-behaved runner: every test starts at most
once, `pass` and `fail` events concern previously started tests, and no
hook-failure titles occur. -/
def StrictTrace (started : List String) : List MEvent → Prop
  | [] => True
  | MEvent.start :: rest => StrictTrace started rest
  | MEvent.endEv :: rest => StrictTrace started rest
  | MEvent.testStart t :: rest => t ∉ started ∧ StrictTrace (t :: started) rest
  | MEvent.pass t _ :: rest => t ∈ started ∧ StrictTrace started rest
  | MEvent.fail t :: rest =>
    hasHookMarker t = false ∧ t ∈ started ∧ StrictTrace started rest

/-- The titles of the trace's `TestStart` events. -/
def startedTitles (evs : List MEvent) : List String :=
  evs.filterMap (fun e => match e with
    | MEvent.testStart t => some t
    | _ => none)

theorem lookupTitle_mem (t : String) (l : List (String × Nat)) (i : Nat)
    (h : lookupTitle t l = some i) : (t, i) ∈ l := by
  induction l with
  | nil => cases h
  | cons p rest ih =>
    obtain ⟨t2, i2⟩ := p
    simp only [lookupTitle] at h
    by_cases h2 : t2 = t
    · rw [if_pos h2] at h
      injection h with h3
      rw [h2, h3]
      exact List.mem_cons_self _ _
    · rw [if_neg h2] at h
      exact List.mem_cons_of_mem _ (ih h)

theorem lookupTitle_none (t : String) (l : List (String × Nat)) (i : Nat)
    (h : lookupTitle t l = none) : (t, i) ∉ l := by
  induction l with
  | nil => simp
  | cons p rest ih =>
    obtain ⟨t2, i2⟩ := p
    simp only [lookupTitle] at h
    by_cases h2 : t2 = t
    · rw [if_pos h2] at h
      cases h
    · rw [if_neg h2] at h
      intro hmem
      rcases List.mem_cons.mp hmem with heq | hmem2
      · injection heq with ha hb
        exact h2 ha.symm
      · exact ih h hmem2

theorem eraseTitle_sublist (t : String) (l : List (String × Nat)) :
    (eraseTitle t l).Sublist l :=
  List.filter_sublist l

theorem mem_eraseTitle_of_ne (t t2 : String) (i : Nat)
    (l : List (String × Nat)) (hmem : (t2, i) ∈ l) (hne : t2 ≠ t) :
    (t2, i) ∈ eraseTitle t l := by
  simp only [eraseTitle, List.mem_filter]
  exact ⟨hmem, by simpa using hne⟩

theorem not_mem_eraseTitle (t : String) (i : Nat) (l : List (String × Nat)) :
    (t, i) ∉ eraseTitle t l := by
  simp [eraseTitle, List.mem_filter]

theorem lookupTitle_eraseTitle (t : String) (l : List (String × Nat)) :
    lookupTitle t (eraseTitle t l) = none := by
  induction l with
  | nil => rfl
  | cons p rest ih =>
    obtain ⟨t2, i2⟩ := p
    by_cases h2 : t2 = t
    · simpa [eraseTitle, h2] using ih
    · simpa [eraseTitle, h2, lookupTitle] using ih

theorem title_unique (tests0 : List (String × Nat))
    (hT : (titlesOf tests0).Nodup) (t : String) (i i2 : Nat)
    (h1 : (t, i) ∈ tests0) (h2 : (t, i2) ∈ tests0) : i = i2 := by
  induction tests0 with
  | nil => cases h1
  | cons p rest ih =>
    obtain ⟨t0, i0⟩ := p
    simp only [titlesOf, List.map_cons, List.nodup_cons] at hT
    rcases List.mem_cons.mp h1 with he1 | hm1 <;>
      rcases List.mem_cons.mp h2 with he2 | hm2
    · injection he1 with a1 b1
      injection he2 with a2 b2
      rw [b1, b2]
    · injection he1 with a1 b1
      exact absurd (List.mem_map.mpr ⟨(t, i2), hm2, a1⟩) hT.1
    · injection he2 with a2 b2
      exact absurd (List.mem_map.mpr ⟨(t, i), hm1, a2⟩) hT.1
    · exact ih hT.2 hm1 hm2

theorem id_unique (tests0 : List (String × Nat))
    (hI : (idsOf tests0).Nodup) (t t2 : String) (i : Nat)
    (h1 : (t, i) ∈ tests0) (h2 : (t2, i) ∈ tests0) : t = t2 := by
  induction tests0 with
  | nil => cases h1
  | cons p rest ih =>
    obtain ⟨t0, i0⟩ := p
    simp only [idsOf, List.map_cons, List.nodup_cons] at hI
    rcases List.mem_cons.mp h1 with he1 | hm1 <;>
      rcases List.mem_cons.mp h2 with he2 | hm2
    · injection he1 with a1 b1
      injection he2 with a2 b2
      rw [a1, a2]
    · injection he1 with a1 b1
      exact absurd (List.mem_map.mpr ⟨(t2, i), hm2, b1⟩) hI.1
    · injection he2 with a2 b2
      exact absurd (List.mem_map.mpr ⟨(t, i), hm1, b2⟩) hI.1
    · exact ih hI.2 hm1 hm2

theorem lookupTitle_of_mem (t : String) (l : List (String × Nat)) (i : Nat)
    (hT : (titlesOf l).Nodup) (hmem : (t, i) ∈ l) :
    lookupTitle t l = some i := by
  induction l with
  | nil => cases hmem
  | cons p rest ih =>
    obtain ⟨t2, i2⟩ := p
    simp only [titlesOf, List.map_cons, List.nodup_cons] at hT
    rcases List.mem_cons.mp hmem with heq | hmem2
    · injection heq with a b
      simp [lookupTitle, a, b]
    · have hne : t2 ≠ t := by
        intro h
        exact hT.1 (by rw [h]; exact List.mem_map.mpr ⟨(t, i), hmem2, rfl⟩)
      simp only [lookupTitle, if_neg hne]
      exact ih hT.2 hmem2

theorem terminalCount_append (i : Nat) (es1 es2 : List Emit) :
    terminalCount i (es1 ++ es2) = terminalCount i es1 + terminalCount i es2 := by
  simp [terminalCount, List.filter_append]

theorem terminalCount_single_self (i : Nat) (e : Emit) (h : emitId e = i) :
    terminalCount i [e] = 1 := by
  have hb : isTerminalFor i e = true := by simp [isTerminalFor, h]
  simp [terminalCount, List.filter, hb]

theorem terminalCount_single_ne (i : Nat) (e : Emit) (h : emitId e ≠ i) :
    terminalCount i [e] = 0 := by
  have hb : isTerminalFor i e = false := by simp [isTerminalFor, h]
  simp [terminalCount, List.filter, hb]

theorem terminalCount_skippedE_not_mem (i : Nat) (l : List Nat)
    (h : i ∉ l) : terminalCount i (l.map Emit.skippedE) = 0 := by
  induction l with
  | nil => rfl
  | cons j rest ih =>
    have hne : j ≠ i := fun he => h (he ▸ List.mem_cons_self _ _)
    have := ih (fun hm => h (List.mem_cons_of_mem _ hm))
    simp only [List.map_cons]
    rw [show (Emit.skippedE j :: rest.map Emit.skippedE) =
      [Emit.skippedE j] ++ rest.map Emit.skippedE from rfl,
      terminalCount_append, terminalCount_single_ne i (Emit.skippedE j) hne,
      this]

theorem terminalCount_skippedE_nodup (i : Nat) (l : List Nat)
    (h : l.Nodup) : terminalCount i (l.map Emit.skippedE) ≤ 1 := by
  induction l with
  | nil => simp [terminalCount]
  | cons j rest ih =>
    simp only [List.nodup_cons] at h
    simp only [List.map_cons]
    rw [show (Emit.skippedE j :: rest.map Emit.skippedE) =
      [Emit.skippedE j] ++ rest.map Emit.skippedE from rfl,
      terminalCount_append]
    by_cases hj : j = i
    · rw [terminalCount_single_self i (Emit.skippedE j) hj,
        terminalCount_skippedE_not_mem i rest (hj ▸ h.1)]
    · rw [terminalCount_single_ne i (Emit.skippedE j) hj]
      have := ih h.2
      omega

theorem terminalCount_zero_not_mem (i : Nat) (es : List Emit) (e : Emit)
    (h : terminalCount i es = 0) (hid : emitId e = i) : e ∉ es := by
  intro hmem
  have : e ∈ es.filter (isTerminalFor i) :=
    List.mem_filter.mpr ⟨hmem, by simp [isTerminalFor, hid]⟩
  have hlen := List.length_pos.mpr (List.ne_nil_of_mem this)
  rw [show (es.filter (isTerminalFor i)).length = terminalCount i es from rfl,
    h] at hlen
  omega

theorem mem_skippedE_map (i : Nat) (l : List Nat) :
    Emit.skippedE i ∈ l.map Emit.skippedE ↔ i ∈ l := by
  simp

/-- The inductive invariant of the correlator under the strict trace
discipline: pending entries are a sub-map of the initial one; the skipped
set holds initial ids; a test not yet started is still pending, still
marked skipped and has no terminal emission; a started test is unmarked and
has at most one terminal emission — none while it is still pending; ids
outside the initial map receive no emission; and the event loop itself
never emits `skipped`. -/
def ScanInv (tests0 : List (String × Nat)) (started : List String)
    (s : ScanState) : Prop :=
  s.tests.Sublist tests0 ∧
  s.skipped.Sublist (idsOf tests0) ∧
  (∀ t i, (t, i) ∈ tests0 → t ∉ started →
    (t, i) ∈ s.tests ∧ i ∈ s.skipped ∧ terminalCount i s.emits = 0) ∧
  (∀ t i, (t, i) ∈ tests0 → t ∈ started →
    i ∉ s.skipped ∧ terminalCount i s.emits ≤ 1 ∧
    ((t, i) ∈ s.tests → terminalCount i s.emits = 0)) ∧
  (∀ i, i ∉ idsOf tests0 → terminalCount i s.emits = 0) ∧
  (∀ i, Emit.skippedE i ∉ s.emits)

theorem scanInv_congr (tests0 : List (String × Nat)) (A B : List String)
    (h : ∀ t, t ∈ A ↔ t ∈ B) (s : ScanState) (hInv : ScanInv tests0 A s) :
    ScanInv tests0 B s := by
  obtain ⟨h1, h2, h3, h4, h5, h6⟩ := hInv
  exact ⟨h1, h2,
    fun t i hm hn => h3 t i hm (fun hin => hn ((h t).mp hin)),
    fun t i hm hn => h4 t i hm ((h t).mpr hn), h5, h6⟩

theorem scanInv_init (tests0 : List (String × Nat)) :
    ScanInv tests0 [] (initState tests0) := by
  refine ⟨List.Sublist.refl _, List.Sublist.refl _, ?_, ?_, ?_, ?_⟩
  · intro t i hmem _
    exact ⟨hmem, List.mem_map.mpr ⟨(t, i), hmem, rfl⟩, rfl⟩
  · intro t i _ hin
    cases hin
  · intro i _
    rfl
  · intro i hmem
    cases hmem

theorem scanInv_testStart (tests0 : List (String × Nat))
    (hT : (titlesOf tests0).Nodup) (hI : (idsOf tests0).Nodup)
    (started : List String) (s : ScanState) (t : String)
    (hInv : ScanInv tests0 started s) (hnew : t ∉ started) :
    ScanInv tests0 (t :: started) (processEvent s (MEvent.testStart t)) := by
  obtain ⟨h1, h2, h3, h4, h5, h6⟩ := hInv
  cases hlk : lookupTitle t s.tests with
  | none =>
    simp only [processEvent, hlk]
    refine ⟨h1, h2, ?_, ?_, h5, h6⟩
    · intro t2 i hmem hnot
      exact h3 t2 i hmem (fun hin => hnot (List.mem_cons_of_mem _ hin))
    · intro t2 i hmem hin
      rcases List.mem_cons.mp hin with heq | hin2
      · exact absurd (h3 t2 i hmem (heq ▸ hnew)).1
          (lookupTitle_none t2 s.tests i (heq ▸ hlk))
      · exact h4 t2 i hmem hin2
  | some i0 =>
    have hpair : (t, i0) ∈ s.tests := lookupTitle_mem t s.tests i0 hlk
    have hpair0 : (t, i0) ∈ tests0 := h1.subset hpair
    have hskipNodup : s.skipped.Nodup := List.Nodup.sublist h2 hI
    simp only [processEvent, hlk]
    refine ⟨h1, List.Sublist.trans (List.erase_sublist _ _) h2, ?_, ?_, h5, h6⟩
    · intro t2 i hmem hnot
      have hne : t2 ≠ t := fun h => hnot (h ▸ List.mem_cons_self _ _)
      have hprev := h3 t2 i hmem (fun hin => hnot (List.mem_cons_of_mem _ hin))
      refine ⟨hprev.1, ?_, hprev.2.2⟩
      have hne2 : i ≠ i0 := by
        intro h
        exact hne (id_unique tests0 hI t2 t i hmem (h ▸ hpair0))
      exact (List.mem_erase_of_ne hne2).mpr hprev.2.1
    · intro t2 i hmem hin
      rcases List.mem_cons.mp hin with heq | hin2
      · have hieq : i = i0 :=
          title_unique tests0 hT t i i0 (heq ▸ hmem) hpair0
        subst hieq
        subst heq
        have hz := (h3 t2 i hmem hnew).2.2
        refine ⟨?_, ?_, fun _ => hz⟩
        · intro hmem2
          exact absurd (((List.Nodup.mem_erase_iff hskipNodup).mp hmem2).1)
            (by simp)
        · show terminalCount i s.emits ≤ 1
          omega
      · have hold := h4 t2 i hmem hin2
        exact ⟨fun hm => hold.1 (List.mem_of_mem_erase hm), hold.2.1, hold.2.2⟩

theorem scanInv_step_terminal (tests0 : List (String × Nat))
    (hT : (titlesOf tests0).Nodup) (hI : (idsOf tests0).Nodup)
    (started : List String) (s' s : ScanState) (t : String) (i0 : Nat)
    (e : Emit) (hInv : ScanInv tests0 started s)
    (hst : t ∈ started)
    (hlk : lookupTitle t s.tests = some i0)
    (hid : emitId e = i0)
    (hns : ∀ j, e ≠ Emit.skippedE j)
    (ht' : s'.tests = eraseTitle t s.tests)
    (hs' : s'.skipped = s.skipped)
    (he' : s'.emits = s.emits ++ [e]) :
    ScanInv tests0 started s' := by
  obtain ⟨h1, h2, h3, h4, h5, h6⟩ := hInv
  have hpair : (t, i0) ∈ s.tests := lookupTitle_mem t s.tests i0 hlk
  have hpair0 : (t, i0) ∈ tests0 := h1.subset hpair
  refine ⟨?_, ?_, ?_, ?_, ?_, ?_⟩
  · rw [ht']
    exact List.Sublist.trans (eraseTitle_sublist t s.tests) h1
  · rw [hs']
    exact h2
  · intro t2 i hmem hnot
    have hne : t2 ≠ t := fun h => hnot (h ▸ hst)
    have hprev := h3 t2 i hmem hnot
    have hne2 : i ≠ i0 := by
      intro h
      exact hne (id_unique tests0 hI t2 t i hmem (h ▸ hpair0))
    rw [ht', hs', he', terminalCount_append,
      terminalCount_single_ne i e (by rw [hid]; exact fun h => hne2 h.symm)]
    exact ⟨mem_eraseTitle_of_ne t t2 i s.tests hprev.1 hne,
      hprev.2.1, by rw [hprev.2.2]⟩
  · intro t2 i hmem hin
    have hold := h4 t2 i hmem hin
    by_cases heq : t2 = t
    · subst heq
      have hieq : i = i0 := title_unique tests0 hT t2 i i0 hmem hpair0
      subst hieq
      have hz : terminalCount i s.emits = 0 := hold.2.2 hpair
      rw [hs', he', ht', terminalCount_append,
        terminalCount_single_self i e hid, hz]
      refine ⟨hold.1, by omega, ?_⟩
      intro hmem2
      exact absurd hmem2 (not_mem_eraseTitle t2 i s.tests)
    · have hne2 : i ≠ i0 := by
        intro h
        exact heq (id_unique tests0 hI t2 t i hmem (h ▸ hpair0))
      rw [hs', he', ht', terminalCount_append,
        terminalCount_single_ne i e (by rw [hid]; exact fun h => hne2 h.symm)]
      refine ⟨hold.1, by omega, ?_⟩
      intro hmem2
      rw [hold.2.2 ((eraseTitle_sublist t s.tests).subset hmem2)]
  · intro i hnotin
    have hne2 : i0 ≠ i := by
      intro h
      exact hnotin (h ▸ List.mem_map.mpr ⟨(t, i0), hpair0, rfl⟩)
    rw [he', terminalCount_append, h5 i hnotin,
      terminalCount_single_ne i e (by rw [hid]; exact hne2)]
  · intro i hmem
    rw [he'] at hmem
    rcases List.mem_append.mp hmem with h | h
    · exact h6 i h
    · rcases List.mem_singleton.mp h with heq
      exact hns i heq.symm

theorem scanInv_run (tests0 : List (String × Nat))
    (hT : (titlesOf tests0).Nodup) (hI : (idsOf tests0).Nodup) :
    ∀ (evs : List MEvent) (started : List String) (s : ScanState),
      StrictTrace started evs → ScanInv tests0 started s →
      ScanInv tests0 (startedTitles evs ++ started)
        (evs.foldl processEvent s) := by
  intro evs
  induction evs with
  | nil =>
    intro started s _ hInv
    simpa [startedTitles] using hInv
  | cons e rest ih =>
    intro started s hstrict hInv
    cases e with
    | start =>
      simp only [startedTitles, List.filterMap_cons, List.foldl_cons]
      simp only [StrictTrace] at hstrict
      exact ih started s hstrict hInv
    | endEv =>
      simp only [startedTitles, List.filterMap_cons, List.foldl_cons]
      simp only [StrictTrace] at hstrict
      exact ih started s hstrict hInv
    | testStart t =>
      simp only [StrictTrace] at hstrict
      simp only [startedTitles, List.filterMap_cons, List.foldl_cons]
      have hstep := scanInv_testStart tests0 hT hI started s t hInv hstrict.1
      have hres := ih (t :: started) _ hstrict.2 hstep
      refine scanInv_congr tests0 _ _ ?_ _ hres
      intro t2
      simp only [startedTitles, List.mem_append, List.mem_cons]
      tauto
    | pass t d =>
      simp only [StrictTrace] at hstrict
      simp only [startedTitles, List.filterMap_cons, List.foldl_cons]
      cases hlk : lookupTitle t s.tests with
      | none =>
        have hpe : processEvent s (MEvent.pass t d) = s := by
          simp [processEvent, hlk]
        rw [hpe]
        exact ih started s hstrict.2 hInv
      | some i0 =>
        have hstep : ScanInv tests0 started (processEvent s (MEvent.pass t d)) :=
          scanInv_step_terminal tests0 hT hI started _ s t i0
            (Emit.passed i0 d) hInv hstrict.1 hlk rfl (fun j => by simp)
            (by simp [processEvent, hlk]) (by simp [processEvent, hlk])
            (by simp [processEvent, hlk])
        exact ih started _ hstrict.2 hstep
    | fail t =>
      simp only [StrictTrace] at hstrict
      simp only [startedTitles, List.filterMap_cons, List.foldl_cons]
      cases hlk : lookupTitle t s.tests with
      | none =>
        have hpe : processEvent s (MEvent.fail t) = s := by
          simp [processEvent, hlk, hstrict.1]
        rw [hpe]
        exact ih started s hstrict.2.2 hInv
      | some i0 =>
        have hstep : ScanInv tests0 started (processEvent s (MEvent.fail t)) :=
          scanInv_step_terminal tests0 hT hI started _ s t i0
            (Emit.failed i0) hInv hstrict.2.1 hlk rfl (fun j => by simp)
            (by simp [processEvent, hlk]) (by simp [processEvent, hlk])
            (by simp [processEvent, hlk])
        exact ih started _ hstrict.2.2 hstep

theorem scanInv_conclude (tests0 : List (String × Nat))
    (hI : (idsOf tests0).Nodup) (started : List String) (s : ScanState)
    (hInv : ScanInv tests0 started s) (i : Nat) :
    terminalCount i (finishScan s) ≤ 1 := by
  obtain ⟨h1, h2, h3, h4, h5, h6⟩ := hInv
  have hskipNodup : s.skipped.Nodup := List.Nodup.sublist h2 hI
  simp only [finishScan, terminalCount_append]
  by_cases hin : i ∈ idsOf tests0
  · obtain ⟨p, hpm, hsnd⟩ := List.mem_map.mp hin
    obtain ⟨t, i2⟩ := p
    have hsnd2 : i2 = i := hsnd
    subst hsnd2
    by_cases hstart : t ∈ started
    · have h := h4 t i2 hpm hstart
      rw [terminalCount_skippedE_not_mem i2 s.skipped h.1]
      omega
    · have h := h3 t i2 hpm hstart
      rw [h.2.2]
      have := terminalCount_skippedE_nodup i2 s.skipped hskipNodup
      omega
  · rw [h5 i hin, terminalCount_skippedE_not_mem i s.skipped
      (fun h => hin (h2.subset h))]
    omega

theorem scanInv_skipped_iff (tests0 : List (String × Nat))
    (started : List String) (s : ScanState)
    (hInv : ScanInv tests0 started s) (t : String) (i : Nat)
    (hmem : (t, i) ∈ tests0) :
    (Emit.skippedE i ∈ finishScan s ↔ t ∉ started) ∧
    (t ∉ started → (∀ d, Emit.passed i d ∉ finishScan s) ∧
      Emit.failed i ∉ finishScan s) := by
  obtain ⟨h1, h2, h3, h4, h5, h6⟩ := hInv
  constructor
  · constructor
    · intro hin hstart
      simp only [finishScan] at hin
      rcases List.mem_append.mp hin with h | h
      · exact h6 i h
      · exact (h4 t i hmem hstart).1 ((mem_skippedE_map i s.skipped).mp h)
    · intro hnot
      simp only [finishScan]
      exact List.mem_append.mpr (Or.inr ((mem_skippedE_map i s.skipped).mpr
        (h3 t i hmem hnot).2.1))
  · intro hnot
    have hz := (h3 t i hmem hnot).2.2
    constructor
    · intro d hin
      simp only [finishScan] at hin
      rcases List.mem_append.mp hin with h | h
      · exact terminalCount_zero_not_mem i s.emits (Emit.passed i d) hz rfl h
      · obtain ⟨j, _, hj⟩ := List.mem_map.mp h
        cases hj
    · intro hin
      simp only [finishScan] at hin
      rcases List.mem_append.mp hin with h | h
      · exact terminalCount_zero_not_mem i s.emits (Emit.failed i) hz rfl h
      · obtain ⟨j, _, hj⟩ := List.mem_map.mp h
        cases hj

/-- Claim C3 (amended): under the strict trace discipline — each test
started at most once, `pass`/`fail` only for started tests, no hook-failure
titles — with distinct full titles and distinct test items, every test
receives at most one terminal state over the whole run, including the final
skip marking.  Moreover a `pass` event for a pending full title emits
`Passed` with the reported duration, records the test as last seen and
deletes the title from the pending map, after which the title no longer
resolves, so late or duplicate events are ignored.  Without the discipline
the hook-failure fallback can re-report a test that already has a terminal
state (see the counterexample). -/
theorem scan_at_most_one_terminal (tests0 : List (String × Nat))
    (evs : List MEvent) (i : Nat) (s : ScanState) (t : String) (d j : Nat)
    (hT : (titlesOf tests0).Nodup) (hI : (idsOf tests0).Nodup)
    (hstrict : StrictTrace [] evs)
    (hlk : lookupTitle t s.tests = some j) :
    terminalCount i (finishScan (runScan tests0 evs)) ≤ 1 ∧
    processEvent s (MEvent.pass t d) =
      { s with
        lastTest := some j
        tests := eraseTitle t s.tests
        emits := s.emits ++ [Emit.passed j d] } ∧
    lookupTitle t (eraseTitle t s.tests) = none := by
  refine ⟨?_, by simp [processEvent, hlk], lookupTitle_eraseTitle t s.tests⟩
  have hfin := scanInv_run tests0 hT hI evs [] (initState tests0) hstrict
    (scanInv_init tests0)
  exact scanInv_conclude tests0 hI _ _ hfin i

/-- Claim C3 counterexample: test `a` passes (receiving `Passed`), then a
hook-failure event whose title is not in the map falls back to the
last-seen test `a` — which receives a second terminal state, `Failed`. -/
theorem scan_double_terminal_counterexample :
    (runScan [("a", 0)]
      [MEvent.testStart "a", MEvent.pass "a" 5,
       MEvent.fail "x hook for y"]).emits =
      [Emit.passed 0 5, Emit.failed 0] ∧
    terminalCount 0 (finishScan (runScan [("a", 0)]
      [MEvent.testStart "a", MEvent.pass "a" 5,
       MEvent.fail "x hook for y"])) = 2 :=
  ⟨rfl, rfl⟩

/-- Concrete instantiation of `scan_at_most_one_terminal` on the trace
`testStart a; pass a; end`. -/
theorem scan_at_most_one_terminal_witness :
    terminalCount 0 (finishScan (runScan [("a", 0)]
      [MEvent.testStart "a", MEvent.pass "a" 5, MEvent.endEv])) ≤ 1 ∧
    processEvent (initState [("a", 0)]) (MEvent.pass "a" 5) =
      { initState [("a", 0)] with
        lastTest := some 0
        tests := eraseTitle "a" (initState [("a", 0)]).tests
        emits := (initState [("a", 0)]).emits ++ [Emit.passed 0 5] } ∧
    lookupTitle "a" (eraseTitle "a" (initState [("a", 0)]).tests) = none :=
  scan_at_most_one_terminal [("a", 0)]
    [MEvent.testStart "a", MEvent.pass "a" 5, MEvent.endEv] 0
    (initState [("a", 0)]) "a" 5 0 (by decide) (by decide)
    ⟨List.not_mem_nil _, List.mem_cons_self _ _, trivial⟩ rfl

/-- Claim C5 (amended): the final skip marking is keyed on `TestStart`, not
on terminal events: under the strict trace discipline with distinct titles
and distinct test items, a test is marked `Skipped` at the end of the run
exactly when no `TestStart` for its title was observed, and such a
never-started test receives no `Passed` or `Failed` state either.  (A test
that starts but never finishes is not marked skipped — see the
counterexample against the claim's `pass`/`fail` wording.) -/
theorem scan_skipped_iff_never_started (tests0 : List (String × Nat))
    (evs : List MEvent) (t : String) (i : Nat)
    (hT : (titlesOf tests0).Nodup) (hI : (idsOf tests0).Nodup)
    (hstrict : StrictTrace [] evs) (hmem : (t, i) ∈ tests0) :
    (Emit.skippedE i ∈ finishScan (runScan tests0 evs) ↔
      t ∉ startedTitles evs) ∧
    (t ∉ startedTitles evs →
      (∀ d, Emit.passed i d ∉ finishScan (runScan tests0 evs)) ∧
      Emit.failed i ∉ finishScan (runScan tests0 evs)) := by
  have hfin := scanInv_run tests0 hT hI evs [] (initState tests0) hstrict
    (scanInv_init tests0)
  have hfin2 : ScanInv tests0 (startedTitles evs) (runScan tests0 evs) :=
    scanInv_congr tests0 _ _ (by simp) _ hfin
  exact scanInv_skipped_iff tests0 (startedTitles evs) _ hfin2 t i hmem

/-- Claim C5 counterexample: test `a` starts but the stream ends before any
terminal event; it never received `pass` or `fail`, yet the run marks
nothing skipped, because `TestStart` already removed it from
`skippedTests`. -/
theorem scan_skipped_counterexample :
    finishScan (runScan [("a", 0)] [MEvent.testStart "a", MEvent.endEv]) =
      [] ∧
    Emit.skippedE 0 ∉
      finishScan (runScan [("a", 0)] [MEvent.testStart "a", MEvent.endEv]) := by
  refine ⟨rfl, ?_⟩
  rw [show finishScan (runScan [("a", 0)]
    [MEvent.testStart "a", MEvent.endEv]) = [] from rfl]
  simp

/-- Concrete instantiation of `scan_skipped_iff_never_started`: `b` is
never started in the trace `testStart a; pass a; end`, so it is marked
skipped and receives no other terminal state. -/
theorem scan_skipped_iff_never_started_witness :
    (Emit.skippedE 1 ∈ finishScan (runScan [("a", 0), ("b", 1)]
      [MEvent.testStart "a", MEvent.pass "a" 3, MEvent.endEv]) ↔
      "b" ∉ startedTitles
        [MEvent.testStart "a", MEvent.pass "a" 3, MEvent.endEv]) ∧
    ("b" ∉ startedTitles
        [MEvent.testStart "a", MEvent.pass "a" 3, MEvent.endEv] →
      (∀ d, Emit.passed 1 d ∉ finishScan (runScan [("a", 0), ("b", 1)]
        [MEvent.testStart "a", MEvent.pass "a" 3, MEvent.endEv])) ∧
      Emit.failed 1 ∉ finishScan (runScan [("a", 0), ("b", 1)]
        [MEvent.testStart "a", MEvent.pass "a" 3, MEvent.endEv])) :=
  scan_skipped_iff_never_started [("a", 0), ("b", 1)]
    [MEvent.testStart "a", MEvent.pass "a" 3, MEvent.endEv] "b" 1
    (by decide) (by decide)
    ⟨List.not_mem_nil _, List.mem_cons_self _ _, trivial⟩ (by simp)

/-- The run-facing actions of `scanTestOutput` relevant to cleanup. -/
inductive ScanAction where
  | emitA (e : Emit)
  | disposeScanner
  | skipMark (i : Nat)
  | endTask
deriving DecidableEq

/-- How an invocation of `scanTestOutput` can finish: cancellation observed
before listening (the early `return`), the listening promise resolving
(end event, runner error or cancellation) with the exit blockers awaited,
or an exception escaping the body and being caught by the `catch` clause. -/
inductive ScanTermination where
  | earlyCancel
  | completed (evs : List MEvent)
  | threw (evs : List MEvent)

/-- The `finally` block: `scanner.dispose()`, then `task.skipped(test)` for
every entry left in `skippedTests`, then `task.end()`. -/
def cleanupActs (s : ScanState) : List ScanAction :=
  ScanAction.disposeScanner ::
    (s.skipped.map ScanAction.skipMark ++ [ScanAction.endTask])

/-- The ordered run-facing actions of one `scanTestOutput` invocation:
the terminal emissions of the event loop, then the `finally` block — which
JavaScript runs on every path out of the `try`/`catch`, whether the body
returned early, completed, or threw into the `catch`. -/
def scanRun (tests0 : List (String × Nat)) :
    ScanTermination → List ScanAction
  | ScanTermination.earlyCancel => cleanupActs (initState tests0)
  | ScanTermination.completed evs =>
    (runScan tests0 evs).emits.map ScanAction.emitA ++
      cleanupActs (runScan tests0 evs)
  | ScanTermination.threw evs =>
    (runScan tests0 evs).emits.map ScanAction.emitA ++
      cleanupActs (runScan tests0 evs)

theorem count_endTask_skipMark (l : List Nat) :
    List.count ScanAction.endTask (l.map ScanAction.skipMark) = 0 :=
  List.count_eq_zero.mpr (by simp)

theorem count_dispose_skipMark (l : List Nat) :
    List.count ScanAction.disposeScanner (l.map ScanAction.skipMark) = 0 :=
  List.count_eq_zero.mpr (by simp)

theorem count_endTask_emitA (es : List Emit) :
    List.count ScanAction.endTask (es.map ScanAction.emitA) = 0 :=
  List.count_eq_zero.mpr (by simp)

theorem count_dispose_emitA (es : List Emit) :
    List.count ScanAction.disposeScanner (es.map ScanAction.emitA) = 0 :=
  List.count_eq_zero.mpr (by simp)

theorem count_endTask_cleanup (s : ScanState) :
    List.count ScanAction.endTask (cleanupActs s) = 1 := by
  simp [cleanupActs, List.count_cons, List.count_append, List.count_nil,
    count_endTask_skipMark]

theorem count_dispose_cleanup (s : ScanState) :
    List.count ScanAction.disposeScanner (cleanupActs s) = 1 := by
  simp [cleanupActs, List.count_cons, List.count_append, List.count_nil,
    count_dispose_skipMark]

theorem getLast_cleanup (s : ScanState) :
    (cleanupActs s).getLast? = some ScanAction.endTask := by
  rw [show cleanupActs s =
    (ScanAction.disposeScanner :: s.skipped.map ScanAction.skipMark) ++
      [ScanAction.endTask] from by simp [cleanupActs]]
  exact List.getLast?_concat _

theorem getLast_append_cleanup (l : List ScanAction) (s : ScanState) :
    (l ++ cleanupActs s).getLast? = some ScanAction.endTask := by
  rw [show l ++ cleanupActs s =
    (l ++ (ScanAction.disposeScanner :: s.skipped.map ScanAction.skipMark)) ++
      [ScanAction.endTask] from by simp [cleanupActs]]
  exact List.getLast?_concat _

/-- Claim C10: however the scan finishes — early cancellation, a completed
or erroring stream, or an exception thrown while handling events — the
`finally` block disposes the output scanner exactly once and calls the
run's `end()` exactly once, and `end()` is the last action before the
promise resolves. -/
theorem scan_finally_cleanup (tests0 : List (String × Nat))
    (term : ScanTermination) :
    List.count ScanAction.endTask (scanRun tests0 term) = 1 ∧
    List.count ScanAction.disposeScanner (scanRun tests0 term) = 1 ∧
    (scanRun tests0 term).getLast? = some ScanAction.endTask := by
  cases term with
  | earlyCancel =>
    exact ⟨count_endTask_cleanup _, count_dispose_cleanup _, getLast_cleanup _⟩
  | completed evs =>
    refine ⟨?_, ?_, getLast_append_cleanup _ _⟩
    · simp only [scanRun, List.count_append, count_endTask_emitA,
        count_endTask_cleanup, Nat.zero_add]
    · simp only [scanRun, List.count_append, count_dispose_emitA,
        count_dispose_cleanup, Nat.zero_add]
  | threw evs =>
    refine ⟨?_, ?_, getLast_append_cleanup _ _⟩
    · simp only [scanRun, List.count_append, count_endTask_emitA,
        count_endTask_cleanup, Nat.zero_add]
    · simp only [scanRun, List.count_append, count_dispose_emitA,
        count_dispose_cleanup, Nat.zero_add]

end SelfhostTest
